import Mathlib

/-!
# tensornet: sparse dump converter and AdaGrad value kernels

A shallow embedding of `core/tools/emb_converter.cc` and of the inline members of
`core/ps/optimizer/ada_grad_kernel.h`.

* `std::string` is `List Char`; a `butil::IOBuf` holding binary data is `List Byte`,
  one holding the text output is `List Char`.
* `size_t` arithmetic is taken modulo `2 ^ 64`, `uint32_t` modulo `2 ^ 32`.
* A failed `CHECK` terminates the process; it is the status `check_failed`.
* The room left on the stack where a variable length array is declared is a parameter,
  `Stack`; a negative bound is the status `undefined`, too large a bound `stack_overflow`.
-/

namespace tensornet

/-! ## Bytes and integers -/

/-- One byte of a binary buffer. -/
abbrev Byte := Fin 256

/-- Value of a byte sequence copied into an unsigned integer on a little-endian machine. -/
def le_value : List Byte → Nat
  | [] => 0
  | b :: bs => b.val + 256 * le_value bs

/-- The `n` little-endian bytes of `x` (the low `8 * n` bits). -/
def le_bytes : Nat → Nat → List Byte
  | 0, _ => []
  | n + 1, x => ⟨x % 256, Nat.mod_lt x (by decide)⟩ :: le_bytes n (x / 256)

/-- Reading a 32-bit pattern as `int` (two's complement). -/
def to_int32 (v : Nat) : Int :=
  if v < 2 ^ 31 then (v : Int) else (v : Int) - 2 ^ 32

/-- The 32-bit pattern of an `int`. -/
def of_int32 (i : Int) : Nat :=
  (i % 2 ^ 32).toNat

/-- Conversion of an integer expression to `size_t`. -/
def to_size_t (i : Int) : Nat :=
  (i % 2 ^ 64).toNat

/-! ## Text conversions of the standard library -/

/-- The call `std::to_string(uint64_t)`: decimal digits, no sign, no leading zeros. -/
def to_string_u64 (key : Nat) : List Char :=
  Nat.toDigits 10 key

/-- The call `std::to_string(int)`. -/
def to_string_int (i : Int) : List Char :=
  if i < 0 then '-' :: Nat.toDigits 10 i.natAbs else Nat.toDigits 10 i.toNat

/-- Six decimal digits of a number below one million, zeros in front. -/
def six_digits (n : Nat) : List Char :=
  let ds := Nat.toDigits 10 n
  List.replicate (6 - ds.length) '0' ++ ds

/-- The call `std::to_string(float)` on the binary32 pattern `bits`: the output of
`printf("%f")`, that is the exact value rounded to six decimals (ties to even),
with `inf` and `nan` for an all-ones exponent and `-` whenever the sign bit is set. -/
def to_string_float (bits : Nat) : List Char :=
  let sign := bits / 2 ^ 31 % 2
  let e := bits / 2 ^ 23 % 256
  let m := bits % 2 ^ 23
  let pre : List Char := if sign = 1 then ['-'] else []
  if e = 255 then
    pre ++ (if m = 0 then ['i', 'n', 'f'] else ['n', 'a', 'n'])
  else
    let mant := if e = 0 then m else m + 2 ^ 23
    let ex := if e = 0 then 1 else e
    -- the magnitude is mant * 2 ^ (ex - 150); in millionths it is num / den
    let num := mant * 10 ^ 6 * 2 ^ (ex - 150)
    let den := 2 ^ (150 - ex)
    let q := num / den
    let r := num % den
    let q := if den < 2 * r ∨ (2 * r = den ∧ q % 2 = 1) then q + 1 else q
    pre ++ Nat.toDigits 10 (q / 10 ^ 6) ++ '.' :: six_digits (q % 10 ^ 6)

/-! ## Path handling -/

/-- The call `boost::split(vec, s, boost::is_any_of(sep))` with one separator character
and the default `token_compress_off`: one component per separator, plus one. -/
def split (sep : Char) : List Char → List (List Char)
  | [] => [[]]
  | c :: cs =>
    if c = sep then [] :: split sep cs
    else
      match split sep cs with
      | [] => [[c]]
      | h :: t => (c :: h) :: t

/-- The call `s.find(pat)` of `std::string`: the first position at which `pat` occurs,
`none` for `npos`. -/
def find : List Char → List Char → Option Nat
  | [], pat => if pat.isEmpty then some 0 else none
  | c :: cs, pat =>
    if pat.isPrefixOf (c :: cs) then some 0
    else (find cs pat).map (· + 1)

/-! ## ParseAdaGradParams -/

/-- How a call ends. -/
inductive Status where
  /-- the function returned this value -/
  | returned (code : Int)
  /-- a `CHECK` failed and the process was terminated -/
  | check_failed
  /-- a `std::vector` was indexed outside its bounds -/
  | out_of_range
  /-- an array was declared with a negative bound: what follows is undefined -/
  | undefined
  /-- an array was declared for which the stack has no room: the process dies -/
  | stack_overflow
  /-- the model of a loop was given too few iterations -/
  | out_of_fuel
  deriving DecidableEq, Repr

/-- The stack of the process at the declaration `float weight[dim]`: the number of `float`s
it still has room for. It depends on the stack limit the process was started with (the
usual 8 MiB hold 2097152 floats and the frames of the callers take a little of that);
`room` says that a page of 4096 bytes is left, as in every process that runs. -/
structure Stack where
  floats : Nat
  room : 1024 ≤ floats

/-- State at the end of a call of `ParseAdaGradParams`: how it ended, what is left in the
local `buf_in`, and the contents of the output buffer `buf`. -/
structure ParseResult where
  status : Status
  buf_in : List Byte
  buf : List Char
  deriving DecidableEq, Repr

/-- The `for` loop over `weight[0 .. dim)`: each float of the array `weight` (given as the
bytes copied into it) appended as a tab and its text. -/
def weights_text (dim : Int) (weight : List Byte) : List Char :=
  ((List.range dim.toNat).map fun i =>
    '\t' :: to_string_float (le_value ((weight.drop (4 * i)).take 4))).flatten

/-- The `while (buf_in.size())` loop of `ParseAdaGradParams`, followed by `return 0`.
`cutn` and `pop_front` of `butil::IOBuf` remove `min n size` bytes from the front and
return how many they removed. -/
def recordLoop (dim : Int) (table_handle : List Char) :
    Nat → List Byte → List Char → ParseResult
  | 0, buf_in, buf =>
    if buf_in.length = 0 then ⟨.returned 0, buf_in, buf⟩ else ⟨.out_of_fuel, buf_in, buf⟩
  | fuel + 1, buf_in, buf =>
    if buf_in.length = 0 then ⟨.returned 0, buf_in, buf⟩
    else if ¬ (buf_in.length > 8) then ⟨.check_failed, buf_in, buf⟩
    else
      let key := buf_in.take 8
      let buf_in := buf_in.drop 8
      if key.length ≠ 8 then ⟨.check_failed, buf_in, buf⟩
      else
        let buf := buf ++ (to_string_u64 (le_value key) ++ '\t' :: table_handle)
        let no_use_data_len : Nat := 4 + 4
        if ¬ (buf_in.length ≥ to_size_t (dim * 4 + (no_use_data_len : Int) + 4)) then
          ⟨.check_failed, buf_in, buf⟩
        else
          let weight := buf_in.take (to_size_t (4 * dim))
          let buf_in := buf_in.drop (to_size_t (4 * dim))
          if weight.length ≠ to_size_t (4 * dim) then ⟨.check_failed, buf_in, buf⟩
          else
            let popped := buf_in.take no_use_data_len
            let buf_in := buf_in.drop no_use_data_len
            if popped.length ≠ no_use_data_len then ⟨.check_failed, buf_in, buf⟩
            else
              let show_ := buf_in.take 4
              let buf_in := buf_in.drop 4
              if show_.length ≠ 4 then ⟨.check_failed, buf_in, buf⟩
              else
                let buf := buf ++ weights_text dim weight
                let buf := buf ++ '\t' :: to_string_float (le_value show_)
                let buf := buf ++ ['\n']
                recordLoop dim table_handle fuel buf_in buf

/-- The lines `boost::split(vec, file, boost::is_any_of("/"))` and
`table_handle = vec[vec.size() - 3]`: the third component from the end. With fewer than
three components `vec.size() - 3` wraps around and the index is outside the vector:
`none`. -/
def table_handle (file : List Char) : Option (List Char) :=
  let vec := split '/' file
  if h : vec.length < 3 then none
  else some (vec.get ⟨vec.length - 3, by omega⟩)

/-- The function `ParseAdaGradParams(file, buf)`. `read_from_file` is
`tensornet::read_from_file`: the contents of the file, `none` when it reports a failure.
The variable length array `float weight[dim]` is declared right after the header is read:
a negative `dim` is undefined there, and a `dim` beyond the room on the stack ends the
process before the path is split; a bound of 0 is accepted by the compiler. The loop gets
one iteration per remaining byte, which is never too few. -/
def ParseAdaGradParams (stack : Stack) (read_from_file : List Char → Option (List Byte))
    (file : List Char) (buf : List Char) : ParseResult :=
  match read_from_file file with
  | none => ⟨.returned (-1), [], buf⟩
  | some buf_in =>
    if buf_in.length = 0 then ⟨.returned 0, buf_in, buf⟩
    else
      let header := buf_in.take 4
      let buf_in := buf_in.drop 4
      if header.length ≠ 4 then ⟨.check_failed, buf_in, buf⟩
      else
        let dim := to_int32 (le_value header)
        -- float weight[dim];
        if dim < 0 then ⟨.undefined, buf_in, buf⟩
        else if stack.floats < dim.toNat then ⟨.stack_overflow, buf_in, buf⟩
        else
          match table_handle file with
          | none => ⟨.out_of_range, buf_in, buf⟩
          | some table_handle => recordLoop dim table_handle buf_in.length buf_in buf

/-- The function `ParseAdamParams(file, buf)`: a placeholder that returns 0. The result is
the return value and the output buffer. -/
def ParseAdamParams (_file : List Char) (buf : List Char) : Int × List Char :=
  (0, buf)

/-! ## Convert -/

/-- The string `"/rank_" + std::to_string(rank) + "/"`. -/
def rank_flag (rank : Int) : List Char :=
  "/rank_".toList ++ to_string_int rank ++ "/".toList

/-- State after the `for` loop of `Convert`: the loop ran to its end with the buffer
`buf`, or the call ended inside the loop. -/
inductive LoopResult where
  | finished (buf : List Char)
  | ended (status : Status)
  deriving DecidableEq, Repr

/-- The `for (auto& file : files)` loop of `Convert`. -/
def convertLoop (stack : Stack) (read_from_file : List Char → Option (List Byte))
    (parse_mode : List Char) (rank : Int) : List (List Char) → List Char → LoopResult
  | [], buf => .finished buf
  | file :: files, buf =>
    let flag := rank_flag rank
    if find file flag = none then convertLoop stack read_from_file parse_mode rank files buf
    else if parse_mode = "AdaGrad".toList then
      let r := ParseAdaGradParams stack read_from_file file buf
      match r.status with
      | .returned code =>
        if code < 0 then .ended (.returned (-1))
        else convertLoop stack read_from_file parse_mode rank files r.buf
      | s => .ended s
    else if parse_mode = "Adam".toList then
      let r := ParseAdamParams file buf
      if r.1 < 0 then .ended (.returned (-1))
      else convertLoop stack read_from_file parse_mode rank files r.2
    else convertLoop stack read_from_file parse_mode rank files buf

/-- End of a call of `Convert`: how it ended and the calls of `write_to_file` it made,
each with the path and the contents it passed. -/
structure ConvertResult where
  status : Status
  written : List (List Char × List Char)
  deriving DecidableEq, Repr

/-- The function `Convert(files, out_file, parse_mode, rank)`. `write_to_file` is
`tensornet::write_to_file`, given by its return value. -/
def Convert (stack : Stack) (read_from_file : List Char → Option (List Byte))
    (write_to_file : List Char → List Char → Int)
    (files : List (List Char)) (out_file : List Char) (parse_mode : List Char)
    (rank : Int) : ConvertResult :=
  match convertLoop stack read_from_file parse_mode rank files [] with
  | .ended s => ⟨s, []⟩
  | .finished buf =>
    if write_to_file out_file buf < 0 then ⟨.returned (-1), [(out_file, buf)]⟩
    else ⟨.returned 0, [(out_file, buf)]⟩

/-! ## SparseAdaGradValue -/

/-- Modelled from the spec: `UnionWeight` is declared in `optimizer_kernel.h`, which is
not among the sources at hand. It is used through its two members: `v`, an array of floats
inside the value ("inline", "fixed 2-slot capacity"), and `p`, a pointer to a "separately
owned heap array". `v` is the contents of the inline array as binary32 patterns, `p` the
address held by the pointer member. -/
structure UnionWeight where
  v : List Nat
  p : Nat
  deriving DecidableEq, Repr

/-- What a `float*` returned by `Weight()` points to: the inline array of the value
itself, or the heap array at an address. -/
inductive FloatPtr where
  | inline_v
  | heap (p : Nat)
  deriving DecidableEq, Repr

/-- The data members of `SparseAdaGradValue`; floats are binary32 patterns. -/
structure SparseAdaGradValue where
  w_ : UnionWeight
  g2sum_ : Nat
  dim_ : Int
  version_ : Nat
  show_ : Nat
  deriving DecidableEq, Repr

namespace SparseAdaGradValue

/-- The member `Dim()`. -/
def Dim (x : SparseAdaGradValue) : Int := x.dim_

/-- The member `IsMiniDim()`. -/
def IsMiniDim (x : SparseAdaGradValue) : Bool :=
  if 2 > x.dim_ then true else false

/-- The member `Weight()`. -/
def Weight (x : SparseAdaGradValue) : FloatPtr :=
  if x.IsMiniDim then .inline_v else .heap x.w_.p

/-- The destructor `~SparseAdaGradValue()`: the addresses it passes to `delete`, in
order. -/
def destruct (x : SparseAdaGradValue) : List Nat :=
  if !x.IsMiniDim then [x.w_.p] else []

/-- The member `Version()`. -/
def Version (x : SparseAdaGradValue) : Nat := x.version_

/-- The member `IncreaseVersion()`: `version_++` on a `uint32_t`. -/
def IncreaseVersion (x : SparseAdaGradValue) : SparseAdaGradValue :=
  { x with version_ := (x.version_ + 1) % 2 ^ 32 }

end SparseAdaGradValue

namespace SparseAdaGradValue

/-- The member `AddShow(show)`: `show_ += show`. `float_add` is the addition of two
binary32 values on the machine, given on their patterns. -/
def AddShow (float_add : Nat → Nat → Nat) (x : SparseAdaGradValue) (show_ : Nat) :
    SparseAdaGradValue :=
  { x with show_ := float_add x.show_ show_ }

end SparseAdaGradValue

/-- One call of a member function of `SparseAdaGradValue`, among `IncreaseVersion`,
`AddShow`, `Version`, `Dim`, `Weight` and `IsMiniDim`. -/
inductive MemberCall where
  | IncreaseVersion
  | AddShow (show_ : Nat)
  | Version
  | Dim
  | Weight
  | IsMiniDim
  deriving DecidableEq, Repr

/-- The value after one call: `IncreaseVersion` and `AddShow` assign a member, the bodies
of `Version`, `Dim`, `Weight` and `IsMiniDim` only read. -/
def MemberCall.run (float_add : Nat → Nat → Nat) :
    MemberCall → SparseAdaGradValue → SparseAdaGradValue
  | .IncreaseVersion, x => x.IncreaseVersion
  | .AddShow show_, x => x.AddShow float_add show_
  | .Version, x => x
  | .Dim, x => x
  | .Weight, x => x
  | .IsMiniDim, x => x

/-- The value after a sequence of calls, first call first. -/
def run_calls (float_add : Nat → Nat → Nat) (calls : List MemberCall)
    (x : SparseAdaGradValue) : SparseAdaGradValue :=
  calls.foldl (fun v c => c.run float_add v) x

/-! ## DenseAdaGradValue -/

/-- The data members of `DenseAdaGradValue`: four `Eigen::ArrayXf`, each given by its
coefficients as binary32 patterns. -/
structure DenseAdaGradValue where
  w_ : List Nat
  d2sum_ : List Nat
  g2sum_ : List Nat
  m_ : List Nat
  deriving DecidableEq, Repr

/-- The member `DataSize()`: `w_.size() * sizeof(float) * 4`, computed in `size_t`. -/
def DenseAdaGradValue.DataSize (x : DenseAdaGradValue) : Nat :=
  to_size_t ((x.w_.length : Int) * 4 * 4)

/-- Modelled from the spec: `SparseAdaGradValue::Serialized` is declared in
`ada_grad_kernel.h` and defined in a source file that is not at hand. "Sparse binary
layout (per value): weight bytes (dim floats) + g2sum (float) + version (uint32) + show
(float), dim supplied out-of-band." The arguments are the `dim` weights, `g2sum`,
`version` and `show` as 32-bit patterns. -/
def Serialized (weight : List Nat) (g2sum version show_ : Nat) : List Byte :=
  (weight.map (le_bytes 4)).flatten ++ le_bytes 4 g2sum ++ le_bytes 4 version
    ++ le_bytes 4 show_

/-! ## The dump format in the words of the specification -/

/-- The fields of the text line of one record `[uint64 key][dim × float weight]
[8 bytes reserved][float show]`: key, table handle, `weight[0 .. dim)`, show. -/
def record_fields (handle : List Char) (dim : Nat) (r : List Byte) : List (List Char) :=
  to_string_u64 (le_value (r.take 8)) :: handle ::
    (((List.range dim).map fun i => to_string_float (le_value ((r.drop (8 + 4 * i)).take 4)))
      ++ [to_string_float (le_value ((r.drop (8 + 4 * dim + 8)).take 4))])

/-- The text line of one record: its fields separated by tabs, then a newline. -/
def record_line (handle : List Char) (dim : Nat) (r : List Byte) : List Char :=
  List.intercalate ['\t'] (record_fields handle dim r) ++ ['\n']

/-- One piece of the output of the record loop: the key, the table handle and the floats
printed so far, separated by tabs, and the newline when the line is complete. -/
def emitted_line (handle : List Char) (key : Nat) (floats : List Nat) (complete : Bool) :
    List Char :=
  List.intercalate ['\t'] (to_string_u64 key :: handle :: floats.map to_string_float)
    ++ (if complete then ['\n'] else [])

/-- The number that a string of decimal digits denotes. -/
def digits_value (cs : List Char) : Nat :=
  cs.foldl (fun a c => 10 * a + (c.toNat - 48)) 0

/-- What the selected files contribute, each parsed on its own. -/
def selected_output (stack : Stack) (read_from_file : List Char → Option (List Byte)) (rank : Int)
    (files : List (List Char)) : List Char :=
  ((files.filter fun f => decide (rank_flag rank <:+: f)).map fun f =>
    (ParseAdaGradParams stack read_from_file f []).buf).flatten

/-! ## Sample data -/

/-- A list of three files, the first and the last under `rank_0`. -/
def sample_files : List (List Char) :=
  ["/data/tbl/rank_0/part".toList, "/data/tbl/rank_1/part".toList,
    "/data/t2/rank_0/q".toList]

/-- A read function that fails on every path. -/
def read_none : List Char → Option (List Byte) :=
  fun _ => none

/-- A dense value of length 3 with all coefficients zero. -/
def sample_dense : DenseAdaGradValue :=
  ⟨[0, 0, 0], [0, 0, 0], [0, 0, 0], [0, 0, 0]⟩

/-- An addition on patterns used to run examples: it is exact on the two patterns of 1.0
and 2.0 and returns its first argument otherwise. -/
def sample_float_add (a b : Nat) : Nat :=
  if a = 0x3F800000 ∧ b = 0x40000000 then 0x40400000 else a

/-- A dump for `dim = 0` with a single byte after the header. -/
def sample_one_byte : List Byte :=
  le_bytes 4 0 ++ le_bytes 1 0

/-- A stack with the room of the usual limit of 8 MiB. -/
def sample_stack : Stack :=
  ⟨2097152, by decide⟩

/-- The weights of a sparse value of dimension 3000000, all zero. -/
def sample_big_weights : List Nat :=
  List.replicate 3000000 0

/-- A write function that always succeeds. -/
def write_ok : List Char → List Char → Int :=
  fun _ _ => 0

/-- A sparse value of dimension 1 whose version counter is at its largest value. -/
def sample_value : SparseAdaGradValue :=
  ⟨⟨[0x3F800000, 0], 0⟩, 0, 1, 4294967295, 0⟩

/-- A read function that finds the same contents under every path. -/
def read_const (bytes : List Byte) : List Char → Option (List Byte) :=
  fun _ => some bytes

/-- A path whose third component from the end is `tbl`. -/
def sample_path : List Char := "/data/tbl/rank_0/part".toList

/-- A record for `dim = 1`: key 7, weight 1.0, eight reserved bytes, show 2.0. -/
def sample_record_a : List Byte :=
  le_bytes 8 7 ++ le_bytes 4 0x3F800000 ++ le_bytes 8 0 ++ le_bytes 4 0x40000000

/-- A record for `dim = 1`: key 8, weight -0.5, eight reserved bytes, show 1.0. -/
def sample_record_b : List Byte :=
  le_bytes 8 8 ++ le_bytes 4 0xBF000000 ++ le_bytes 8 0x0000000500000000 ++
    le_bytes 4 0x3F800000

/-- A dump for `dim = 0` cut off one byte before the end of its only record. -/
def sample_truncated : List Byte :=
  le_bytes 4 0 ++ le_bytes 8 9 ++ le_bytes 8 0 ++ le_bytes 3 0

/-- A sparse value with two weights (1.0 and -0.5), `g2sum` 0.25, version 5 and show
2.0, as 32-bit patterns. -/
def sample_weights : List Nat := [0x3F800000, 0xBF000000]

/-- The record of the end-to-end example: key 42, the binary32 values nearest to 0.1, -0.2
and 0.3 as weights, the given reserved bytes, and show 7.5. -/
def example_record (reserved : List Byte) : List Byte :=
  le_bytes 8 42 ++ le_bytes 4 0x3DCCCCCD ++ le_bytes 4 0xBE4CCCCD ++ le_bytes 4 0x3E99999A
    ++ reserved ++ le_bytes 4 0x40F00000

/-- The dump of the end-to-end example: `dim = 3` and the one record. -/
def example_dump (reserved : List Byte) : List Byte :=
  le_bytes 4 3 ++ [example_record reserved].flatten

/-! ## Lemmas on bytes and integers -/

theorem le_bytes_length (n x : Nat) : (le_bytes n x).length = n := by
  induction n generalizing x with
  | zero => rfl
  | succ n ih => simp [le_bytes, ih]

theorem le_value_le_bytes (n x : Nat) (h : x < 256 ^ n) : le_value (le_bytes n x) = x := by
  induction n generalizing x with
  | zero => simp at h; simp [le_bytes, le_value, h]
  | succ n ih =>
    have h2 : x / 256 < 256 ^ n := by
      rw [Nat.div_lt_iff_lt_mul (by decide)]
      rw [pow_succ] at h
      exact h
    simp only [le_bytes, le_value, ih _ h2]
    omega

theorem to_size_t_of_nat (n : Nat) (h : n < 2 ^ 64) : to_size_t (n : Int) = n := by
  unfold to_size_t
  have : ((n : Int) % 2 ^ 64) = (n : Int) := Int.emod_eq_of_lt (by omega) (by exact_mod_cast h)
  rw [this]
  simp

theorem to_int32_of_lt (v : Nat) (h : v < 2 ^ 31) : to_int32 v = (v : Int) := by
  unfold to_int32
  rw [if_pos h]

theorem take_drop_take {α : Type} (l : List α) (n a c : Nat) (h : a + c ≤ n) :
    ((l.take n).drop a).take c = (l.drop a).take c := by
  rw [List.drop_take, List.take_take]
  congr 1
  omega

theorem intercalate_cons_tab (t : Char) (a : List Char) (l : List (List Char)) :
    List.intercalate [t] (a :: l) = a ++ (l.map fun x => t :: x).flatten := by
  induction l generalizing a with
  | nil => simp [List.intercalate]
  | cons b l ih =>
    have := ih b
    simp only [List.intercalate, List.intersperse, List.flatten_cons, List.map_cons] at this ⊢
    rw [this]
    simp

/-! ## One iteration of the record loop -/

theorem weights_text_eq (dim : Nat) (b : List Byte) :
    weights_text (dim : Int) ((b.drop 8).take (4 * dim)) =
      (((List.range dim).map fun i =>
        to_string_float (le_value ((b.drop (8 + 4 * i)).take 4))).map
          fun x => '\t' :: x).flatten := by
  unfold weights_text
  simp only [Int.toNat_ofNat, List.map_map]
  congr 1
  apply List.map_congr_left
  intro i hi
  have hi2 : i < dim := List.mem_range.mp hi
  simp only [Function.comp]
  rw [take_drop_take _ _ _ _ (by omega), List.drop_drop]

/-- A full record at the front of the buffer is consumed by one iteration, which appends
its line. -/
theorem recordLoop_full (dim : Nat) (hdim : dim < 2 ^ 31) (handle : List Char) (fuel : Nat)
    (b : List Byte) (buf : List Char) (hb : 8 + 4 * dim + 8 + 4 ≤ b.length) :
    recordLoop (dim : Int) handle (fuel + 1) b buf =
      recordLoop (dim : Int) handle fuel (b.drop (8 + 4 * dim + 8 + 4))
        (buf ++ record_line handle dim (b.take (8 + 4 * dim + 8 + 4))) := by
  have h1 : to_size_t ((dim : Int) * 4 + ((4 + 4 : Nat) : Int) + 4) = 4 * dim + 12 := by
    have : ((dim : Int) * 4 + ((4 + 4 : Nat) : Int) + 4) = ((4 * dim + 12 : Nat) : Int) := by
      push_cast; ring
    rw [this, to_size_t_of_nat _ (by omega)]
  have h2 : to_size_t (4 * (dim : Int)) = 4 * dim := by
    have : (4 * (dim : Int)) = ((4 * dim : Nat) : Int) := by push_cast; ring
    rw [this, to_size_t_of_nat _ (by omega)]
  rw [recordLoop]
  simp only [h1, h2]
  rw [if_neg (by omega), if_neg (by omega), if_neg (by simp; omega), if_neg (by simp; omega),
    if_neg (by simp; omega), if_neg (by simp; omega), if_neg (by simp; omega)]
  congr 1
  · simp only [List.drop_drop]
  · rw [weights_text_eq]
    unfold record_line record_fields
    rw [intercalate_cons_tab]
    simp only [List.take_take, List.drop_drop, List.map_cons, List.map_append,
      List.flatten_cons, List.flatten_append, List.flatten_nil, List.append_assoc,
      List.cons_append, List.nil_append, List.append_nil, List.singleton_append]
    rw [show min 8 (8 + 4 * dim + 8 + 4) = 8 by omega]
    have e1 : ∀ i ∈ List.range dim,
        to_string_float (le_value (List.take 4 (List.drop (8 + 4 * i)
          (List.take (8 + 4 * dim + 8 + 4) b)))) =
        to_string_float (le_value (List.take 4 (List.drop (8 + 4 * i) b))) := by
      intro i hi
      have hi2 : i < dim := List.mem_range.mp hi
      rw [take_drop_take _ _ _ _ (by omega)]
    rw [List.map_congr_left e1]
    rw [take_drop_take _ _ _ _ (by omega)]
    simp

/-- A non-empty buffer shorter than one record fails a `CHECK`. -/
theorem recordLoop_short (dim : Nat) (hdim : dim < 2 ^ 31) (handle : List Char) (fuel : Nat)
    (b : List Byte) (buf : List Char) (h0 : 0 < b.length)
    (hb : b.length < 8 + 4 * dim + 8 + 4) :
    (recordLoop (dim : Int) handle (fuel + 1) b buf).status = .check_failed := by
  have h1 : to_size_t ((dim : Int) * 4 + ((4 + 4 : Nat) : Int) + 4) = 4 * dim + 12 := by
    have : ((dim : Int) * 4 + ((4 + 4 : Nat) : Int) + 4) = ((4 * dim + 12 : Nat) : Int) := by
      push_cast; ring
    rw [this, to_size_t_of_nat _ (by omega)]
  rw [recordLoop]
  simp only [h1]
  rw [if_neg (by omega)]
  by_cases h8 : b.length > 8
  · rw [if_neg (by omega), if_neg (by simp; omega), if_pos (by simp; omega)]
  · rw [if_pos h8]

/-- The loop never depends on what the output buffer already holds: it only appends. -/
theorem recordLoop_append (dim : Int) (handle : List Char) (fuel : Nat) (b : List Byte)
    (pre buf : List Char) :
    recordLoop dim handle fuel b (pre ++ buf) =
      ⟨(recordLoop dim handle fuel b buf).status, (recordLoop dim handle fuel b buf).buf_in,
        pre ++ (recordLoop dim handle fuel b buf).buf⟩ := by
  induction fuel generalizing b buf with
  | zero =>
    simp only [recordLoop]
    split_ifs <;> rfl
  | succ fuel ih =>
    rw [recordLoop, recordLoop]
    simp only []
    split_ifs
    all_goals first
      | rfl
      | (simp only [List.append_assoc]; done)
      | (simp only [List.append_assoc]; exact ih _ _)

/-- With one unit of fuel per byte the loop ends by itself: it succeeds on a whole
number of records and fails a `CHECK` otherwise. -/
theorem recordLoop_status (dim : Nat) (hdim : dim < 2 ^ 31) (handle : List Char) (fuel : Nat)
    (b : List Byte) (buf : List Char) (hf : b.length ≤ fuel) :
    (recordLoop (dim : Int) handle fuel b buf).status =
      if b.length % (8 + 4 * dim + 8 + 4) = 0 then .returned 0 else .check_failed := by
  induction fuel generalizing b buf with
  | zero =>
    have : b.length = 0 := by omega
    simp [recordLoop, this]
  | succ fuel ih =>
    by_cases h0 : b.length = 0
    · simp [recordLoop, h0]
    · by_cases hb : b.length < 8 + 4 * dim + 8 + 4
      · rw [recordLoop_short dim hdim handle fuel b buf (by omega) hb]
        rw [if_neg]
        rw [Nat.mod_eq_of_lt hb]
        exact h0
      · rw [recordLoop_full dim hdim handle fuel b buf (by omega)]
        rw [ih _ _ (by simp; omega)]
        have : (b.drop (8 + 4 * dim + 8 + 4)).length % (8 + 4 * dim + 8 + 4)
            = b.length % (8 + 4 * dim + 8 + 4) := by
          rw [List.length_drop]
          exact (Nat.mod_eq_sub_mod (by omega)).symm
        rw [this]

/-- A whole number of records is turned into their lines, and nothing is left. -/
theorem recordLoop_records (dim : Nat) (hdim : dim < 2 ^ 31) (handle : List Char)
    (records : List (List Byte)) (fuel : Nat) (buf : List Char)
    (hrec : ∀ r ∈ records, r.length = 8 + 4 * dim + 8 + 4) (hf : records.length ≤ fuel) :
    recordLoop (dim : Int) handle fuel records.flatten buf =
      ⟨.returned 0, [], buf ++ (records.map (record_line handle dim)).flatten⟩ := by
  induction records generalizing fuel buf with
  | nil => cases fuel <;> simp [recordLoop]
  | cons r rs ih =>
    cases fuel with
    | zero => simp at hf
    | succ fuel =>
      have hr : r.length = 8 + 4 * dim + 8 + 4 := hrec r (List.mem_cons_self _ _)
      rw [List.flatten_cons, recordLoop_full dim hdim handle fuel _ buf (by simp; omega)]
      rw [← hr, List.drop_left, List.take_left]
      rw [ih fuel _ (fun x hx => hrec x (List.mem_cons_of_mem _ hx)) (by simpa using hf)]
      simp

/-! ## ParseAdaGradParams on a buffer with a header -/

/-- After a successful read of at least four bytes, with a `dim` that is not negative and
fits on the stack and a table handle in the path, the call is the record loop on the rest
of the buffer. -/
theorem parse_eq_recordLoop (stack : Stack) (read_from_file : List Char → Option (List Byte))
    (file buf handle : List Char) (bytes : List Byte)
    (hread : read_from_file file = some bytes) (hlen : 4 ≤ bytes.length)
    (hdim : 0 ≤ to_int32 (le_value (bytes.take 4)))
    (hfit : (to_int32 (le_value (bytes.take 4))).toNat ≤ stack.floats)
    (hpath : table_handle file = some handle) :
    ParseAdaGradParams stack read_from_file file buf =
      recordLoop (to_int32 (le_value (bytes.take 4))) handle (bytes.drop 4).length
        (bytes.drop 4) buf := by
  unfold ParseAdaGradParams
  simp only [hread, hpath]
  rw [if_neg (by omega), if_neg (by simp; omega), if_neg (by omega), if_neg (by omega)]

/-- After a successful read of at least four bytes with a negative `dim` the call stops at
the declaration of the array, whose bound is negative. -/
theorem parse_negative (stack : Stack) (read_from_file : List Char → Option (List Byte))
    (file buf : List Char) (bytes : List Byte)
    (hread : read_from_file file = some bytes) (hlen : 4 ≤ bytes.length)
    (hdim : to_int32 (le_value (bytes.take 4)) < 0) :
    ParseAdaGradParams stack read_from_file file buf = ⟨.undefined, bytes.drop 4, buf⟩ := by
  unfold ParseAdaGradParams
  simp only [hread]
  rw [if_neg (by omega), if_neg (by simp; omega), if_pos hdim]

/-- After a successful read of at least four bytes with a `dim` beyond the room on the
stack the call ends at the declaration of the array. -/
theorem parse_stack_overflow (stack : Stack)
    (read_from_file : List Char → Option (List Byte))
    (file buf : List Char) (bytes : List Byte)
    (hread : read_from_file file = some bytes) (hlen : 4 ≤ bytes.length)
    (hdim : 0 ≤ to_int32 (le_value (bytes.take 4)))
    (hfit : stack.floats < (to_int32 (le_value (bytes.take 4))).toNat) :
    ParseAdaGradParams stack read_from_file file buf
      = ⟨.stack_overflow, bytes.drop 4, buf⟩ := by
  unfold ParseAdaGradParams
  simp only [hread]
  rw [if_neg (by omega), if_neg (by simp; omega), if_neg (by omega), if_pos hfit]

/-- After a successful read of at least four bytes with a `dim` that is not negative and
fits on the stack, a path without table handle ends the call on the index. -/
theorem parse_no_handle (stack : Stack) (read_from_file : List Char → Option (List Byte))
    (file buf : List Char) (bytes : List Byte)
    (hread : read_from_file file = some bytes) (hlen : 4 ≤ bytes.length)
    (hdim : 0 ≤ to_int32 (le_value (bytes.take 4)))
    (hfit : (to_int32 (le_value (bytes.take 4))).toNat ≤ stack.floats)
    (hpath : table_handle file = none) :
    ParseAdaGradParams stack read_from_file file buf
      = ⟨.out_of_range, bytes.drop 4, buf⟩ := by
  unfold ParseAdaGradParams
  simp only [hread, hpath]
  rw [if_neg (by omega), if_neg (by simp; omega), if_neg (by omega), if_neg (by omega)]

theorem header_dim (dim : Nat) (hdim : dim < 2 ^ 31) (rest : List Byte) :
    to_int32 (le_value ((le_bytes 4 dim ++ rest).take 4)) = (dim : Int) := by
  rw [List.take_left' (le_bytes_length 4 dim), le_value_le_bytes 4 dim (by omega),
    to_int32_of_lt dim hdim]

theorem length_flatten_records (n : Nat) (records : List (List Byte))
    (hrec : ∀ r ∈ records, r.length = n) : records.flatten.length = records.length * n := by
  induction records with
  | nil => simp
  | cons r rs ih =>
    rw [List.flatten_cons, List.length_append, hrec r (List.mem_cons_self _ _),
      ih (fun x hx => hrec x (List.mem_cons_of_mem _ hx)), List.length_cons]
    ring

theorem record_fields_length (handle : List Char) (dim : Nat) (r : List Byte) :
    (record_fields handle dim r).length = dim + 3 := by
  simp [record_fields]

/-- The dump `[int32 dim]` followed by whole records is turned into the lines of the
records. -/
theorem parse_records (stack : Stack) (read_from_file : List Char → Option (List Byte))
    (file buf handle : List Char) (dim : Nat) (records : List (List Byte))
    (hdim : dim < 2 ^ 31) (hfit : dim ≤ stack.floats)
    (hrec : ∀ r ∈ records, r.length = 8 + 4 * dim + 8 + 4)
    (hread : read_from_file file = some (le_bytes 4 dim ++ records.flatten))
    (hpath : table_handle file = some handle) :
    ParseAdaGradParams stack read_from_file file buf =
      ⟨.returned 0, [], buf ++ (records.map (record_line handle dim)).flatten⟩ := by
  rw [parse_eq_recordLoop stack read_from_file file buf handle _ hread
    (by simp [le_bytes_length]) (by rw [header_dim dim hdim]; omega)
    (by rw [header_dim dim hdim]; simpa using hfit) hpath]
  rw [header_dim dim hdim, List.drop_left' (le_bytes_length 4 dim)]
  apply recordLoop_records dim hdim handle records _ buf hrec
  rw [length_flatten_records _ records hrec]
  nlinarith

theorem le_value_lt (l : List Byte) : le_value l < 256 ^ l.length := by
  induction l with
  | nil => simp [le_value]
  | cons b bs ih =>
    have hb : b.val < 256 := b.isLt
    simp only [le_value, List.length_cons, pow_succ]
    omega

theorem dim_of_header (bytes : List Byte) (dim : Nat)
    (hdim : to_int32 (le_value (bytes.take 4)) = (dim : Int)) : dim < 2 ^ 31 := by
  have h1 : le_value (bytes.take 4) < 256 ^ (bytes.take 4).length := le_value_lt _
  have h2 : (bytes.take 4).length ≤ 4 := by simp
  have h3 : 256 ^ (bytes.take 4).length ≤ 256 ^ 4 := Nat.pow_le_pow_right (by decide) h2
  unfold to_int32 at hdim
  split_ifs at hdim with h
  · omega
  · omega

/-- The cut-off sample dump fails a `CHECK`, with the key and the handle of the unfinished
line already in the output buffer. -/
theorem sample_truncated_check_failed :
    ParseAdaGradParams sample_stack (read_const sample_truncated) sample_path [] =
      ⟨.check_failed, le_bytes 8 0 ++ le_bytes 3 0, "9\ttbl".toList⟩ := by
  decide

/-! ## The claims on ParseAdaGradParams -/

/-- C1, as the code has it: for every `dim` in the non-negative range of `int32` for
whose `dim` floats the stack has room, every list of records of `8 + 4 * dim + 8 + 4` bytes
each and every file that holds the 4-byte `dim` followed by these records, under a path
that has a table handle (at least three components), `ParseAdaGradParams` returns 0, leaves
nothing in its input buffer and appends one line per record, in order; each line is the
`dim + 3` fields key, table handle, `weight[0 .. dim)`, show, separated by tabs and ended
by a newline. -/
theorem ParseAdaGradParams_wellformed (stack : Stack)
    (read_from_file : List Char → Option (List Byte))
    (file buf handle : List Char) (dim : Nat) (records : List (List Byte))
    (hdim : dim < 2 ^ 31) (hfit : dim ≤ stack.floats)
    (hrec : ∀ r ∈ records, r.length = 8 + 4 * dim + 8 + 4)
    (hread : read_from_file file = some (le_bytes 4 dim ++ records.flatten))
    (hpath : table_handle file = some handle) :
    ParseAdaGradParams stack read_from_file file buf =
        ⟨.returned 0, [], buf ++ (records.map (record_line handle dim)).flatten⟩ ∧
      (records.map (record_line handle dim)).length = records.length ∧
      ∀ r ∈ records,
        record_line handle dim r
            = List.intercalate ['\t'] (record_fields handle dim r) ++ ['\n'] ∧
          (record_fields handle dim r).length = dim + 3 :=
  ⟨parse_records stack read_from_file file buf handle dim records hdim hfit hrec hread hpath,
    List.length_map _ _, fun r _ => ⟨rfl, record_fields_length handle dim r⟩⟩

/-- Instance of C1 as the code has it: a dump with `dim = 1` and two records, read under
`sample_path`. -/
theorem ParseAdaGradParams_wellformed_witness :
    (1 < 2 ^ 31 ∧ 1 ≤ sample_stack.floats ∧
      (∀ r ∈ [sample_record_a, sample_record_b], r.length = 8 + 4 * 1 + 8 + 4) ∧
      read_const (le_bytes 4 1 ++ [sample_record_a, sample_record_b].flatten) sample_path
        = some (le_bytes 4 1 ++ [sample_record_a, sample_record_b].flatten) ∧
      table_handle sample_path = some "tbl".toList) ∧
    ParseAdaGradParams
        sample_stack (read_const (le_bytes 4 1 ++ [sample_record_a, sample_record_b].flatten))
        sample_path [] =
      ⟨.returned 0, [],
        [] ++ ([sample_record_a, sample_record_b].map
          (record_line "tbl".toList 1)).flatten⟩ :=
  ⟨⟨by decide, by decide, by decide, rfl, by decide⟩,
    (ParseAdaGradParams_wellformed
      sample_stack (read_const (le_bytes 4 1 ++ [sample_record_a, sample_record_b].flatten))
      sample_path [] "tbl".toList 1 [sample_record_a, sample_record_b]
      (by decide) (by decide) (by decide) rfl (by decide)).1⟩

/-- C1, as the specification has it, fails: the dump that is the header `dim = 3000000`
and no record ends on the declaration of the weight array, for which a stack of 8 MiB has
no room, and returns nothing; and the well-formed dump with `dim = 1` and two records, read
under the path `part`, ends on the index of the table handle. -/
theorem wellformed_dump_not_parsed :
    ((3000000 : Nat) < 2 ^ 31 ∧
      ParseAdaGradParams sample_stack (read_const (le_bytes 4 3000000 ++ [].flatten))
        sample_path [] = ⟨.stack_overflow, [], []⟩) ∧
    ((∀ r ∈ [sample_record_a, sample_record_b], r.length = 8 + 4 * 1 + 8 + 4) ∧
      ParseAdaGradParams
        sample_stack (read_const (le_bytes 4 1 ++ [sample_record_a, sample_record_b].flatten))
        "part".toList []
        = ⟨.out_of_range, [sample_record_a, sample_record_b].flatten, []⟩) := by
  decide

/-- C4, as the code has it: for every successfully read buffer that is shorter than four
bytes, or whose header decodes to a `dim ≥ 0` for whose floats the stack has room and that
is read under a path with a table handle, `ParseAdaGradParams` returns 0 if and only if the
buffer is empty or its length is `4 + k * (20 + 4 * dim)` for some `k`; for every other
length a `CHECK` fails. -/
theorem ParseAdaGradParams_success_iff (stack : Stack)
    (read_from_file : List Char → Option (List Byte))
    (file buf handle : List Char) (bytes : List Byte) (dim : Nat)
    (hread : read_from_file file = some bytes)
    (hdim : to_int32 (le_value (bytes.take 4)) = (dim : Int))
    (hfit : 4 ≤ bytes.length → dim ≤ stack.floats)
    (hpath : 4 ≤ bytes.length → table_handle file = some handle) :
    ((ParseAdaGradParams stack read_from_file file buf).status = .returned 0 ↔
        bytes.length = 0 ∨ ∃ k, bytes.length = 4 + k * (20 + 4 * dim)) ∧
      (¬ (bytes.length = 0 ∨ ∃ k, bytes.length = 4 + k * (20 + 4 * dim)) →
        (ParseAdaGradParams stack read_from_file file buf).status = .check_failed) := by
  have hd : dim < 2 ^ 31 := dim_of_header bytes dim hdim
  by_cases h0 : bytes.length = 0
  · have : (ParseAdaGradParams stack read_from_file file buf).status = .returned 0 := by
      unfold ParseAdaGradParams
      simp only [hread]
      rw [if_pos h0]
    simp [this, h0]
  · by_cases h4 : bytes.length < 4
    · have : (ParseAdaGradParams stack read_from_file file buf).status = .check_failed := by
        unfold ParseAdaGradParams
        simp only [hread]
        rw [if_neg h0, if_pos (by simp; omega)]
      have hk : ¬ ∃ k, bytes.length = 4 + k * (20 + 4 * dim) := by
        rintro ⟨k, hk⟩
        omega
      simp [this, h0, hk]
    · have hst := recordLoop_status dim hd handle (bytes.drop 4).length (bytes.drop 4) buf
        (le_refl _)
      rw [parse_eq_recordLoop stack read_from_file file buf handle bytes hread (by omega)
        (by rw [hdim]; omega) (by rw [hdim]; simpa using hfit (by omega))
        (hpath (by omega)), hdim, hst]
      have hN : 8 + 4 * dim + 8 + 4 = 20 + 4 * dim := by omega
      have hlen : (bytes.drop 4).length = bytes.length - 4 := List.length_drop _ _
      rw [hN, hlen]
      have key : (bytes.length - 4) % (20 + 4 * dim) = 0 ↔
          ∃ k, bytes.length = 4 + k * (20 + 4 * dim) := by
        constructor
        · intro h
          obtain ⟨c, hc⟩ := Nat.dvd_of_mod_eq_zero h
          exact ⟨c, by rw [Nat.mul_comm c]; omega⟩
        · rintro ⟨k, hk⟩
          have : bytes.length - 4 = k * (20 + 4 * dim) := by omega
          rw [this]
          exact Nat.mul_mod_left _ _
      by_cases hm : (bytes.length - 4) % (20 + 4 * dim) = 0
      · have hex := key.mp hm
        simp [hm, hex]
      · have hex : ¬ ∃ k, bytes.length = 4 + k * (20 + 4 * dim) := fun h => hm (key.mpr h)
        simp [hm, h0, hex]

/-- Instance of C4 as the code has it: a dump with `dim = 0` whose only record lacks its
last byte. -/
theorem ParseAdaGradParams_success_iff_witness :
    (read_const sample_truncated sample_path = some sample_truncated ∧
      to_int32 (le_value (sample_truncated.take 4)) = ((0 : Nat) : Int) ∧
      (4 ≤ sample_truncated.length → 0 ≤ sample_stack.floats) ∧
      (4 ≤ sample_truncated.length → table_handle sample_path = some "tbl".toList)) ∧
    (((ParseAdaGradParams sample_stack (read_const sample_truncated) sample_path []).status
          = .returned 0 ↔
        sample_truncated.length = 0 ∨ ∃ k, sample_truncated.length = 4 + k * (20 + 4 * 0)) ∧
      (¬ (sample_truncated.length = 0 ∨
            ∃ k, sample_truncated.length = 4 + k * (20 + 4 * 0)) →
        (ParseAdaGradParams sample_stack (read_const sample_truncated) sample_path []).status
          = .check_failed)) :=
  ⟨⟨rfl, by decide, by decide, by decide⟩,
    ParseAdaGradParams_success_iff sample_stack (read_const sample_truncated) sample_path []
      "tbl".toList sample_truncated 0 rfl (by decide) (by decide) (by decide)⟩

/-- C4, as the specification has it, fails: the buffer that is the header `dim = 3000000`
alone has length `4 + 0 * (20 + 4 * dim)` and is read, but the call ends on the declaration
of the weight array, for which a stack of 8 MiB has no room; and the header `dim = 0`
alone, read under the path `part`, ends on the index of the table handle. -/
theorem header_only_dump_not_accepted :
    (to_int32 (le_value ((le_bytes 4 3000000).take 4)) = 3000000 ∧
      (le_bytes 4 3000000).length = 4 + 0 * (20 + 4 * 3000000) ∧
      (ParseAdaGradParams sample_stack (read_const (le_bytes 4 3000000)) sample_path
        []).status = .stack_overflow) ∧
    (to_int32 (le_value ((le_bytes 4 0).take 4)) = 0 ∧
      (le_bytes 4 0).length = 4 + 0 * (20 + 4 * 0) ∧
      (ParseAdaGradParams sample_stack (read_const (le_bytes 4 0)) "part".toList
        []).status = .out_of_range) := by
  decide

/-- The line of a record does not depend on its eight reserved bytes. -/
theorem record_line_congr (handle : List Char) (dim : Nat) (r r2 : List Byte)
    (h1 : r.take (8 + 4 * dim) = r2.take (8 + 4 * dim))
    (h2 : r.drop (8 + 4 * dim + 8) = r2.drop (8 + 4 * dim + 8)) :
    record_line handle dim r = record_line handle dim r2 := by
  unfold record_line record_fields
  have e0 : r.take 8 = r2.take 8 := by
    have := congrArg (List.take 8) h1
    rw [List.take_take, List.take_take] at this
    rwa [show min 8 (8 + 4 * dim) = 8 by omega] at this
  have e1 : ∀ i ∈ List.range dim,
      to_string_float (le_value ((r.drop (8 + 4 * i)).take 4)) =
        to_string_float (le_value ((r2.drop (8 + 4 * i)).take 4)) := by
    intro i hi
    have hi2 : i < dim := List.mem_range.mp hi
    rw [← take_drop_take r (8 + 4 * dim) (8 + 4 * i) 4 (by omega),
      ← take_drop_take r2 (8 + 4 * dim) (8 + 4 * i) 4 (by omega), h1]
  rw [e0, List.map_congr_left e1, h2]

/-- C2, as the code has it: for the dump with `dim = 3` and one record with key 42,
weights 0.1, -0.2, 0.3 and show 7.5, whatever the eight reserved bytes, read from a path
whose table handle is `tbl`, `ParseAdaGradParams` returns 0 and appends exactly the line
`42\ttbl\t0.100000\t-0.200000\t0.300000\t7.500000` and a newline: `std::to_string` prints
every float with six decimals. -/
theorem ParseAdaGradParams_end_to_end (stack : Stack) (read_from_file : List Char → Option (List Byte))
    (file buf : List Char) (reserved : List Byte) (hres : reserved.length = 8)
    (hread : read_from_file file = some (example_dump reserved))
    (hpath : table_handle file = some "tbl".toList) :
    ParseAdaGradParams stack read_from_file file buf =
      ⟨.returned 0, [],
        buf ++ "42\ttbl\t0.100000\t-0.200000\t0.300000\t7.500000\n".toList⟩ := by
  have hrec : ∀ r ∈ [example_record reserved], r.length = 8 + 4 * 3 + 8 + 4 := by
    intro r hr
    rw [List.mem_singleton.mp hr]
    simp [example_record, le_bytes_length, hres]
  rw [parse_records stack read_from_file file buf "tbl".toList 3 [example_record reserved]
    (by decide) (le_trans (by decide) stack.room) hrec hread hpath]
  have hline : record_line "tbl".toList 3 (example_record reserved)
      = "42\ttbl\t0.100000\t-0.200000\t0.300000\t7.500000\n".toList := by
    have hsplit : ∀ res : List Byte, example_record res =
        (le_bytes 8 42 ++ le_bytes 4 0x3DCCCCCD ++ le_bytes 4 0xBE4CCCCD
          ++ le_bytes 4 0x3E99999A) ++ (res ++ le_bytes 4 0x40F00000) := by
      intro res
      simp [example_record, List.append_assoc]
    have hA : (le_bytes 8 42 ++ le_bytes 4 0x3DCCCCCD ++ le_bytes 4 0xBE4CCCCD
        ++ le_bytes 4 0x3E99999A).length = 8 + 4 * 3 := by decide
    rw [record_line_congr "tbl".toList 3 (example_record reserved)
      (example_record (le_bytes 8 0))]
    · decide
    · rw [hsplit, hsplit, List.take_left' hA, List.take_left' hA]
    · rw [hsplit, hsplit, ← List.append_assoc, ← List.append_assoc,
        List.drop_left' (by rw [List.length_append, hA, hres]),
        List.drop_left' (by rw [List.length_append, hA, le_bytes_length])]
  simp only [List.map_cons, List.map_nil, List.flatten_cons, List.flatten_nil,
    List.append_nil, hline]

/-- Instance of C2 as the code has it: the example dump with zero reserved bytes. -/
theorem ParseAdaGradParams_end_to_end_witness :
    ((le_bytes 8 0).length = 8 ∧
      read_const (example_dump (le_bytes 8 0)) sample_path
        = some (example_dump (le_bytes 8 0)) ∧
      table_handle sample_path = some "tbl".toList) ∧
    ParseAdaGradParams sample_stack (read_const (example_dump (le_bytes 8 0))) sample_path [] =
      ⟨.returned 0, [],
        [] ++ "42\ttbl\t0.100000\t-0.200000\t0.300000\t7.500000\n".toList⟩ :=
  ⟨⟨by decide, rfl, by decide⟩,
    ParseAdaGradParams_end_to_end sample_stack (read_const (example_dump (le_bytes 8 0))) sample_path []
      (le_bytes 8 0) (by decide) rfl (by decide)⟩

/-- C2, as the specification has it, fails: on the example dump read from a path whose
table handle is `tbl` the output is neither `42\ttbl\t0.1\t-0.2\t0.3\t7.5` nor that line
with a newline; it is the line with six decimals in every float. -/
theorem short_float_line_not_produced :
    table_handle sample_path = some "tbl".toList ∧
    (ParseAdaGradParams sample_stack (read_const (example_dump (le_bytes 8 0))) sample_path []).buf
      ≠ "42\ttbl\t0.1\t-0.2\t0.3\t7.5".toList ∧
    (ParseAdaGradParams sample_stack (read_const (example_dump (le_bytes 8 0))) sample_path []).buf
      ≠ "42\ttbl\t0.1\t-0.2\t0.3\t7.5\n".toList ∧
    ParseAdaGradParams sample_stack (read_const (example_dump (le_bytes 8 0))) sample_path [] =
      ⟨.returned 0, [], "42\ttbl\t0.100000\t-0.200000\t0.300000\t7.500000\n".toList⟩ := by
  decide

/-! ## The converter against the serialized layout -/

theorem length_flatten_weights (weight : List Nat) :
    ((weight.map (le_bytes 4)).flatten).length = 4 * weight.length := by
  induction weight with
  | nil => rfl
  | cons w ws ih =>
    simp only [List.map_cons, List.flatten_cons, List.length_append, le_bytes_length, ih,
      List.length_cons]
    omega

theorem map_range_weights (g : List Byte → List Char) (weight : List Nat)
    (rest : List Byte) :
    ((List.range weight.length).map fun i =>
        g ((((weight.map (le_bytes 4)).flatten ++ rest).drop (4 * i)).take 4)) =
      weight.map fun w => g (le_bytes 4 w) := by
  induction weight with
  | nil => rfl
  | cons w ws ih =>
    rw [List.length_cons, List.range_succ_eq_map, List.map_cons, List.map_map]
    simp only [List.map_cons, List.flatten_cons, List.append_assoc]
    rw [← ih]
    refine congrArg₂ List.cons ?_ (List.map_congr_left ?_)
    · simp only [Nat.mul_zero, List.drop_zero]
      rw [List.take_left' (le_bytes_length 4 w)]
    · intro i _
      simp only [Function.comp]
      rw [show 4 * Nat.succ i = (le_bytes 4 w).length + 4 * i by
        rw [le_bytes_length]; omega]
      rw [List.drop_append]

theorem Serialized_length (weight : List Nat) (g2sum version show_ : Nat) :
    (Serialized weight g2sum version show_).length = 4 * weight.length + 12 := by
  simp only [Serialized, List.length_append, length_flatten_weights, le_bytes_length]

theorem Serialized_drop_weights (weight : List Nat) (g2sum version show_ : Nat) :
    (Serialized weight g2sum version show_).drop (4 * weight.length) =
      le_bytes 4 g2sum ++ le_bytes 4 version ++ le_bytes 4 show_ := by
  unfold Serialized
  rw [List.append_assoc, List.append_assoc,
    List.drop_left' (length_flatten_weights weight), List.append_assoc]

/-- The line of the record made of a key and a serialized value. -/
theorem record_line_Serialized (handle : List Char) (key : Nat) (weight : List Nat)
    (g2sum version show_ : Nat) (hkey : key < 2 ^ 64) (hw : ∀ w ∈ weight, w < 2 ^ 32)
    (hs : show_ < 2 ^ 32) :
    record_line handle weight.length (le_bytes 8 key ++ Serialized weight g2sum version show_)
      = List.intercalate ['\t'] (to_string_u64 key :: handle ::
          (weight.map to_string_float ++ [to_string_float show_])) ++ ['\n'] := by
  unfold record_line record_fields
  rw [List.take_left' (le_bytes_length 8 key), le_value_le_bytes 8 key (by omega)]
  have e1 : ∀ i ∈ List.range weight.length,
      to_string_float (le_value (((le_bytes 8 key ++
        Serialized weight g2sum version show_).drop (8 + 4 * i)).take 4)) =
      (fun l => to_string_float (le_value l)) (((((weight.map (le_bytes 4)).flatten ++
        (le_bytes 4 g2sum ++ le_bytes 4 version ++ le_bytes 4 show_)).drop (4 * i)).take 4))
      := by
    intro i _
    rw [show 8 + 4 * i = (le_bytes 8 key).length + 4 * i by rw [le_bytes_length]]
    rw [List.drop_append]
    simp only [Serialized, List.append_assoc]
  rw [List.map_congr_left e1,
    map_range_weights (fun l => to_string_float (le_value l)) weight _]
  have e2 : ∀ w ∈ weight, to_string_float (le_value (le_bytes 4 w)) = to_string_float w := by
    intro w hwm
    rw [le_value_le_bytes 4 w (by have := hw w hwm; omega)]
  rw [List.map_congr_left e2]
  have e3 : ((le_bytes 8 key ++ Serialized weight g2sum version show_).drop
      (8 + 4 * weight.length + 8)).take 4 = le_bytes 4 show_ := by
    rw [show 8 + 4 * weight.length + 8 = (le_bytes 8 key).length + (4 * weight.length + 8) by
      rw [le_bytes_length]; omega]
    rw [List.drop_append, ← List.drop_drop, Serialized_drop_weights]
    rw [List.drop_left' (by simp [le_bytes_length])]
    exact List.take_of_length_le (by simp [le_bytes_length])
  rw [e3, le_value_le_bytes 4 show_ (by omega)]

/-- C3, as the code has it: for every `dim ≥ 0` for whose floats the stack has room, every
key and every sparse value laid out as in the sparse per-value serialization (`dim` weight
floats, g2sum, version, show), the dump `[int32 dim][uint64 key][that encoding]`, read
under a path with a table handle (at least three components), is accepted by
`ParseAdaGradParams`; the line it prints holds the key, the handle, the
weights and the show of the value; the encoding has `4 * dim + 12` bytes, of which the
converter takes the first `4 * dim` as weights, skips the next eight, which are g2sum and
version, and takes the last four as show. -/
theorem ParseAdaGradParams_reads_Serialized
    (stack : Stack) (read_from_file : List Char → Option (List Byte)) (file buf handle : List Char)
    (key : Nat) (weight : List Nat) (g2sum version show_ : Nat)
    (hkey : key < 2 ^ 64) (hdim : weight.length < 2 ^ 31) (hfit : weight.length ≤ stack.floats)
    (hw : ∀ w ∈ weight, w < 2 ^ 32) (hs : show_ < 2 ^ 32)
    (hread : read_from_file file = some (le_bytes 4 weight.length ++
      [le_bytes 8 key ++ Serialized weight g2sum version show_].flatten))
    (hpath : table_handle file = some handle) :
    ParseAdaGradParams stack read_from_file file buf =
        ⟨.returned 0, [], buf ++ (List.intercalate ['\t'] (to_string_u64 key :: handle ::
          (weight.map to_string_float ++ [to_string_float show_])) ++ ['\n'])⟩ ∧
      (Serialized weight g2sum version show_).length = 4 * weight.length + 12 ∧
      (Serialized weight g2sum version show_).take (4 * weight.length)
        = (weight.map (le_bytes 4)).flatten ∧
      ((Serialized weight g2sum version show_).drop (4 * weight.length)).take 8
        = le_bytes 4 g2sum ++ le_bytes 4 version ∧
      ((Serialized weight g2sum version show_).drop (4 * weight.length)).drop 8
        = le_bytes 4 show_ := by
  refine ⟨?_, Serialized_length _ _ _ _, ?_, ?_, ?_⟩
  · have hrec : ∀ r ∈ [le_bytes 8 key ++ Serialized weight g2sum version show_],
        r.length = 8 + 4 * weight.length + 8 + 4 := by
      intro r hr
      rw [List.mem_singleton.mp hr, List.length_append, le_bytes_length, Serialized_length]
      omega
    rw [parse_records stack read_from_file file buf handle weight.length _ hdim hfit hrec hread
      hpath]
    simp only [List.map_cons, List.map_nil, List.flatten_cons, List.flatten_nil,
      List.append_nil]
    rw [record_line_Serialized handle key weight g2sum version show_ hkey hw hs]
  · unfold Serialized
    rw [List.append_assoc, List.append_assoc, List.take_left' (length_flatten_weights weight)]
  · rw [Serialized_drop_weights]
    exact List.take_left' (by simp [le_bytes_length])
  · rw [Serialized_drop_weights]
    exact List.drop_left' (by simp [le_bytes_length])

/-- Instance of C3 as the code has it: key 7 and a value with two weights. -/
theorem ParseAdaGradParams_reads_Serialized_witness :
    ((7 : Nat) < 2 ^ 64 ∧ sample_weights.length < 2 ^ 31 ∧
      sample_weights.length ≤ sample_stack.floats ∧
      (∀ w ∈ sample_weights, w < 2 ^ 32) ∧ (0x40000000 : Nat) < 2 ^ 32 ∧
      table_handle sample_path = some "tbl".toList) ∧
    ParseAdaGradParams
        sample_stack (read_const (le_bytes 4 sample_weights.length ++
          [le_bytes 8 7 ++ Serialized sample_weights 0x3E800000 5 0x40000000].flatten))
        sample_path [] =
      ⟨.returned 0, [], [] ++ (List.intercalate ['\t'] (to_string_u64 7 :: "tbl".toList ::
        (sample_weights.map to_string_float ++ [to_string_float 0x40000000])) ++ ['\n'])⟩ :=
  ⟨⟨by decide, by decide, by decide, by decide, by decide, by decide⟩,
    (ParseAdaGradParams_reads_Serialized
      sample_stack (read_const (le_bytes 4 sample_weights.length ++
        [le_bytes 8 7 ++ Serialized sample_weights 0x3E800000 5 0x40000000].flatten))
      sample_path [] "tbl".toList 7 sample_weights 0x3E800000 5 0x40000000
      (by decide) (by decide) (by decide) (by decide) (by decide) rfl (by decide)).1⟩

theorem sample_big_weights_length : sample_big_weights.length = 3000000 :=
  List.length_replicate _ _

/-- C3, as the specification has it, fails: the dump of key 7 and the serialized value with
two weights, read under the path `part`, ends on the index of the table handle; and the
dump of a serialized value with 3000000 weights ends on the declaration of the weight
array, for which a stack of 8 MiB has no room. Neither is accepted. -/
theorem serialized_dump_not_accepted :
    (ParseAdaGradParams
        sample_stack (read_const (le_bytes 4 sample_weights.length ++
          [le_bytes 8 7 ++ Serialized sample_weights 0x3E800000 5 0x40000000].flatten))
        "part".toList []).status = .out_of_range ∧
    sample_big_weights.length < 2 ^ 31 ∧
    (ParseAdaGradParams
        sample_stack (read_const (le_bytes 4 sample_big_weights.length ++
          [le_bytes 8 7 ++ Serialized sample_big_weights 0 0 0].flatten))
        sample_path []).status = .stack_overflow := by
  have hlt : sample_big_weights.length < 2 ^ 31 := by
    rw [sample_big_weights_length]
    decide
  have hdim := header_dim sample_big_weights.length hlt
    [le_bytes 8 7 ++ Serialized sample_big_weights 0 0 0].flatten
  refine ⟨by decide, hlt, ?_⟩
  rw [parse_stack_overflow sample_stack _ sample_path []
    (le_bytes 4 sample_big_weights.length ++
      [le_bytes 8 7 ++ Serialized sample_big_weights 0 0 0].flatten) rfl
    (by rw [List.length_append, le_bytes_length]; omega)
    (by rw [hdim]; omega)
    (by
      rw [hdim, Int.toNat_ofNat, sample_big_weights_length]
      decide)]

/-! ## Lemmas on Convert -/

/-- The model of `std::string::find` finds something exactly when the pattern occurs as a
contiguous substring. -/
theorem find_ne_none_iff (s pat : List Char) : find s pat ≠ none ↔ pat <:+: s := by
  induction s with
  | nil =>
    rw [List.infix_nil]
    unfold find
    cases pat <;> simp
  | cons c cs ih =>
    have hc : find (c :: cs) pat =
        if pat.isPrefixOf (c :: cs) then some 0 else (find cs pat).map (· + 1) := rfl
    rw [List.infix_cons_iff, ← ih, hc]
    by_cases hp : pat.isPrefixOf (c :: cs) = true
    · rw [if_pos hp]
      simp [List.isPrefixOf_iff_prefix.mp hp]
    · rw [if_neg hp]
      have : ¬ pat <+: c :: cs := fun h => hp (List.isPrefixOf_iff_prefix.mpr h)
      simp only [ne_eq, Option.map_eq_none', this, false_or]

/-- The record loop returns nothing but 0. -/
theorem recordLoop_returned (dim : Int) (handle : List Char) (fuel : Nat) (b : List Byte)
    (buf : List Char) (code : Int)
    (h : (recordLoop dim handle fuel b buf).status = .returned code) : code = 0 := by
  induction fuel generalizing b buf with
  | zero =>
    simp only [recordLoop] at h
    split_ifs at h
    · injection h with h
      exact h.symm
  | succ fuel ih =>
    rw [recordLoop] at h
    simp only [] at h
    split_ifs at h
    all_goals first
      | (simp at h; done)
      | (simpa using h.symm)
      | exact ih _ _ h

/-- The function `ParseAdaGradParams` returns 0 or -1 when it returns. -/
theorem parse_returned (stack : Stack) (read_from_file : List Char → Option (List Byte))
    (file buf : List Char) (code : Int)
    (h : (ParseAdaGradParams stack read_from_file file buf).status = .returned code) :
    code = 0 ∨ code = -1 := by
  unfold ParseAdaGradParams at h
  cases hr : read_from_file file with
  | none =>
    rw [hr] at h
    right
    injection h with h
    exact h.symm
  | some bytes =>
    rw [hr] at h
    simp only [] at h
    split_ifs at h
    · left
      injection h with h
      exact h.symm
    · cases hth : table_handle file with
      | none => rw [hth] at h; simp at h
      | some th => rw [hth] at h; left; exact recordLoop_returned _ _ _ _ _ _ h

/-- The function `ParseAdaGradParams` only appends to the output buffer, and how it ends
does not depend on what the buffer holds. -/
theorem parse_append (stack : Stack) (read_from_file : List Char → Option (List Byte))
    (file pre buf : List Char) :
    ParseAdaGradParams stack read_from_file file (pre ++ buf) =
      ⟨(ParseAdaGradParams stack read_from_file file buf).status,
        (ParseAdaGradParams stack read_from_file file buf).buf_in,
        pre ++ (ParseAdaGradParams stack read_from_file file buf).buf⟩ := by
  unfold ParseAdaGradParams
  cases hr : read_from_file file with
  | none => rfl
  | some bytes =>
    simp only []
    split_ifs
    · rfl
    · rfl
    · rfl
    · rfl
    · cases hth : table_handle file with
      | none => rfl
      | some th => exact recordLoop_append _ _ _ _ _ _

theorem parse_from_empty (stack : Stack) (read_from_file : List Char → Option (List Byte))
    (file buf : List Char) :
    ParseAdaGradParams stack read_from_file file buf =
      ⟨(ParseAdaGradParams stack read_from_file file []).status,
        (ParseAdaGradParams stack read_from_file file []).buf_in,
        buf ++ (ParseAdaGradParams stack read_from_file file []).buf⟩ := by
  have := parse_append stack read_from_file file buf []
  rwa [List.append_nil] at this

/-- In AdaGrad mode the loop of `Convert` runs to its end when every selected file is
parsed, and then holds the outputs of the selected files in order. -/
theorem convertLoop_AdaGrad_ok (stack : Stack) (read_from_file : List Char → Option (List Byte))
    (rank : Int) (files : List (List Char)) (buf : List Char)
    (hall : ∀ f ∈ files, rank_flag rank <:+: f →
      (ParseAdaGradParams stack read_from_file f []).status = .returned 0) :
    convertLoop stack read_from_file "AdaGrad".toList rank files buf =
      .finished (buf ++ selected_output stack read_from_file rank files) := by
  induction files generalizing buf with
  | nil => simp [convertLoop, selected_output]
  | cons f fs ih =>
    have hfs : ∀ g ∈ fs, rank_flag rank <:+: g →
        (ParseAdaGradParams stack read_from_file g []).status = .returned 0 :=
      fun g hg => hall g (List.mem_cons_of_mem _ hg)
    rw [convertLoop]
    simp only []
    by_cases hsel : rank_flag rank <:+: f
    · have hfind : find f (rank_flag rank) ≠ none := (find_ne_none_iff _ _).mpr hsel
      have hst := hall f (List.mem_cons_self _ _) hsel
      rw [if_neg hfind, if_pos trivial, parse_from_empty stack read_from_file f buf]
      simp only [hst]
      rw [if_neg (by decide), ih _ hfs]
      simp [selected_output, List.filter_cons, hsel]
    · have hfind : find f (rank_flag rank) = none := by
        by_contra hne
        exact hsel ((find_ne_none_iff _ _).mp hne)
      rw [if_pos hfind, ih _ hfs]
      simp [selected_output, List.filter_cons, hsel]

/-- In AdaGrad mode the loop of `Convert` ends the call, with something else than a
return of 0, when a selected file is not parsed. -/
theorem convertLoop_AdaGrad_fail (stack : Stack) (read_from_file : List Char → Option (List Byte))
    (rank : Int) (files : List (List Char)) (buf : List Char)
    (hex : ∃ f ∈ files, find f (rank_flag rank) ≠ none ∧
      (ParseAdaGradParams stack read_from_file f []).status ≠ .returned 0) :
    ∃ s, s ≠ .returned 0 ∧
      convertLoop stack read_from_file "AdaGrad".toList rank files buf = .ended s := by
  induction files generalizing buf with
  | nil => obtain ⟨f, hf, _⟩ := hex; simp at hf
  | cons f fs ih =>
    rw [convertLoop]
    simp only []
    by_cases hfind : find f (rank_flag rank) = none
    · rw [if_pos hfind]
      apply ih
      obtain ⟨g, hg, hg1, hg2⟩ := hex
      rcases List.mem_cons.mp hg with rfl | hg'
      · exact absurd hfind hg1
      · exact ⟨g, hg', hg1, hg2⟩
    · rw [if_neg hfind, if_pos trivial, parse_from_empty stack read_from_file f buf]
      simp only []
      cases hst : (ParseAdaGradParams stack read_from_file f []).status with
      | returned code =>
        simp only []
        rcases parse_returned stack read_from_file f [] code hst with rfl | rfl
        · rw [if_neg (by decide)]
          apply ih
          obtain ⟨g, hg, hg1, hg2⟩ := hex
          rcases List.mem_cons.mp hg with rfl | hg'
          · exact absurd hst hg2
          · exact ⟨g, hg', hg1, hg2⟩
        · rw [if_pos (by decide)]
          exact ⟨_, by decide, rfl⟩
      | check_failed => exact ⟨_, by decide, rfl⟩
      | out_of_range => exact ⟨_, by decide, rfl⟩
      | undefined => exact ⟨_, by decide, rfl⟩
      | stack_overflow => exact ⟨_, by decide, rfl⟩
      | out_of_fuel => exact ⟨_, by decide, rfl⟩

/-- In Adam mode the loop of `Convert` leaves the buffer as it is. -/
theorem convertLoop_Adam (stack : Stack) (read_from_file : List Char → Option (List Byte))
    (rank : Int) (files : List (List Char)) (buf : List Char) :
    convertLoop stack read_from_file "Adam".toList rank files buf = .finished buf := by
  induction files generalizing buf with
  | nil => rfl
  | cons f fs ih =>
    rw [convertLoop]
    simp only []
    by_cases hfind : find f (rank_flag rank) = none
    · rw [if_pos hfind, ih]
    · rw [if_neg hfind, if_neg (by decide), if_pos trivial]
      simp only [ParseAdamParams]
      rw [if_neg (by decide), ih]

/-- Outside AdaGrad mode the loop of `Convert` reads nothing and leaves the buffer as it
is. -/
theorem convertLoop_not_AdaGrad (stack : Stack) (read_from_file : List Char → Option (List Byte))
    (parse_mode : List Char) (hmode : parse_mode ≠ "AdaGrad".toList)
    (rank : Int) (files : List (List Char)) (buf : List Char) :
    convertLoop stack read_from_file parse_mode rank files buf = .finished buf := by
  induction files generalizing buf with
  | nil => rfl
  | cons f fs ih =>
    rw [convertLoop]
    simp only []
    by_cases hfind : find f (rank_flag rank) = none
    · rw [if_pos hfind, ih]
    · rw [if_neg hfind, if_neg hmode]
      by_cases hadam : parse_mode = "Adam".toList
      · rw [if_pos hadam]
        simp only [ParseAdamParams]
        rw [if_neg (by decide), ih]
      · rw [if_neg hadam, ih]

/-- If a call of `Convert` returns 0 it has written its buffer once, with success. -/
theorem Convert_returned_zero (stack : Stack) (read_from_file : List Char → Option (List Byte))
    (write_to_file : List Char → List Char → Int) (files : List (List Char))
    (out_file parse_mode : List Char) (rank : Int)
    (h : (Convert stack read_from_file write_to_file files out_file parse_mode rank).status
      = .returned 0) :
    ∃ buf, convertLoop stack read_from_file parse_mode rank files [] = .finished buf ∧
      (Convert stack read_from_file write_to_file files out_file parse_mode rank).written
        = [(out_file, buf)] ∧ 0 ≤ write_to_file out_file buf := by
  unfold Convert at h ⊢
  cases hl : convertLoop stack read_from_file parse_mode rank files [] with
  | ended s =>
    rw [hl] at h
    simp only [] at h
    by_cases hm : parse_mode = "AdaGrad".toList
    · subst hm
      by_cases hall : ∀ f ∈ files, rank_flag rank <:+: f →
          (ParseAdaGradParams stack read_from_file f []).status = .returned 0
      · rw [convertLoop_AdaGrad_ok stack read_from_file rank files [] hall] at hl
        cases hl
      · push_neg at hall
        obtain ⟨f, hf, hsel, hst⟩ := hall
        obtain ⟨s2, hs2, hl2⟩ := convertLoop_AdaGrad_fail stack read_from_file rank files []
          ⟨f, hf, (find_ne_none_iff _ _).mpr hsel, hst⟩
        rw [hl2] at hl
        injection hl with hl
        exact absurd h (hl ▸ hs2)
    · rw [convertLoop_not_AdaGrad stack read_from_file parse_mode hm] at hl
      cases hl
  | finished buf =>
    rw [hl] at h
    simp only [] at h ⊢
    by_cases hw : write_to_file out_file buf < 0
    · rw [if_pos hw] at h
      simp at h
    · rw [if_neg hw]
      exact ⟨buf, rfl, rfl, by omega⟩

/-! ## The claims on Convert -/

/-- C5, as the code has it: for every file list and rank, in AdaGrad mode, if the read or
the parse of a file selected for this rank fails, `Convert` makes no call of
`write_to_file` and does not return 0; in every mode, if `Convert` returns 0 then it made
exactly one call of `write_to_file`, which succeeded, and in AdaGrad mode every selected
file was read and parsed. How a call of `ParseAdaGradParams` ends does not depend on the
output buffer, so it is stated for the empty one. -/
theorem Convert_no_output_on_failure (stack : Stack) (read_from_file : List Char → Option (List Byte))
    (write_to_file : List Char → List Char → Int) (files : List (List Char))
    (out_file parse_mode : List Char) (rank : Int) :
    ((parse_mode = "AdaGrad".toList ∧ ∃ f ∈ files, find f (rank_flag rank) ≠ none ∧
          (ParseAdaGradParams stack read_from_file f []).status ≠ .returned 0) →
        (Convert stack read_from_file write_to_file files out_file parse_mode rank).written = [] ∧
        (Convert stack read_from_file write_to_file files out_file parse_mode rank).status
          ≠ .returned 0) ∧
      ((Convert stack read_from_file write_to_file files out_file parse_mode rank).status
          = .returned 0 →
        (∃ buf, (Convert stack read_from_file write_to_file files out_file parse_mode rank).written
            = [(out_file, buf)] ∧ 0 ≤ write_to_file out_file buf) ∧
        (parse_mode = "AdaGrad".toList → ∀ f ∈ files, find f (rank_flag rank) ≠ none →
          (∃ bytes, read_from_file f = some bytes) ∧
          (ParseAdaGradParams stack read_from_file f []).status = .returned 0)) := by
  have part1 : (parse_mode = "AdaGrad".toList ∧ ∃ f ∈ files, find f (rank_flag rank) ≠ none ∧
      (ParseAdaGradParams stack read_from_file f []).status ≠ .returned 0) →
      (Convert stack read_from_file write_to_file files out_file parse_mode rank).written = [] ∧
      (Convert stack read_from_file write_to_file files out_file parse_mode rank).status
        ≠ .returned 0 := by
    rintro ⟨rfl, hex⟩
    obtain ⟨s, hs, hl⟩ := convertLoop_AdaGrad_fail stack read_from_file rank files [] hex
    unfold Convert
    rw [hl]
    exact ⟨rfl, hs⟩
  refine ⟨part1, fun h => ?_⟩
  obtain ⟨buf, _, hw, hle⟩ := Convert_returned_zero stack read_from_file write_to_file files
    out_file parse_mode rank h
  refine ⟨⟨buf, hw, hle⟩, fun hm f hf hsel => ?_⟩
  have hst : (ParseAdaGradParams stack read_from_file f []).status = .returned 0 := by
    by_contra hne
    exact (part1 ⟨hm, f, hf, hsel, hne⟩).2 h
  refine ⟨?_, hst⟩
  cases hr : read_from_file f with
  | some bytes => exact ⟨bytes, rfl⟩
  | none =>
    unfold ParseAdaGradParams at hst
    rw [hr] at hst
    simp at hst

/-- Instance of C5 as the code has it: one selected file that holds a cut-off dump. -/
theorem Convert_no_output_on_failure_witness :
    ("AdaGrad".toList = "AdaGrad".toList ∧ ∃ f ∈ [sample_path],
        find f (rank_flag 0) ≠ none ∧
        (ParseAdaGradParams sample_stack (read_const sample_truncated) f []).status ≠ .returned 0) ∧
    (Convert sample_stack (read_const sample_truncated) write_ok [sample_path] "out/part-0".toList
        "AdaGrad".toList 0).written = [] ∧
    (Convert sample_stack (read_const sample_truncated) write_ok [sample_path] "out/part-0".toList
        "AdaGrad".toList 0).status ≠ .returned 0 :=
  ⟨by decide,
    (Convert_no_output_on_failure sample_stack (read_const sample_truncated) write_ok [sample_path]
      "out/part-0".toList "AdaGrad".toList 0).1 (by decide)⟩

/-- C5, as the specification has it, fails outside AdaGrad mode: in mode `Adam`, with a
selected file that cannot be read, `Convert` reads nothing, writes an empty buffer and
returns 0. -/
theorem Convert_Adam_returns_zero_unread :
    sample_path ∈ [sample_path] ∧ find sample_path (rank_flag 0) ≠ none ∧
    read_none sample_path = none ∧
    (ParseAdaGradParams sample_stack read_none sample_path []).status = .returned (-1) ∧
    Convert sample_stack read_none write_ok [sample_path] "out/part-0".toList "Adam".toList 0
      = ⟨.returned 0, [("out/part-0".toList, [])]⟩ := by
  decide

/-- C6: the test `file.find(flag) == npos` of `Convert` skips exactly the files whose path
does not contain `"/rank_<rank>/"`; in AdaGrad mode whatever `Convert` writes is the
concatenation, in the order of the file list, of the output of `ParseAdaGradParams` on each
file whose path contains that marker, and this is written, once, whenever each of those
files is parsed. -/
theorem Convert_AdaGrad_output (stack : Stack) (read_from_file : List Char → Option (List Byte))
    (write_to_file : List Char → List Char → Int) (files : List (List Char))
    (out_file : List Char) (rank : Int) :
    (∀ f, find f (rank_flag rank) = none ↔ ¬ rank_flag rank <:+: f) ∧
      (∀ w ∈ (Convert stack read_from_file write_to_file files out_file "AdaGrad".toList
          rank).written, w = (out_file, selected_output stack read_from_file rank files)) ∧
      ((∀ f ∈ files, rank_flag rank <:+: f →
          (ParseAdaGradParams stack read_from_file f []).status = .returned 0) →
        (Convert stack read_from_file write_to_file files out_file "AdaGrad".toList rank).written
          = [(out_file, selected_output stack read_from_file rank files)]) := by
  have hfind : ∀ f, find f (rank_flag rank) = none ↔ ¬ rank_flag rank <:+: f := by
    intro f
    rw [← find_ne_none_iff]
    simp
  have hok : (∀ f ∈ files, rank_flag rank <:+: f →
      (ParseAdaGradParams stack read_from_file f []).status = .returned 0) →
      (Convert stack read_from_file write_to_file files out_file "AdaGrad".toList rank).written
        = [(out_file, selected_output stack read_from_file rank files)] := by
    intro hall
    unfold Convert
    rw [convertLoop_AdaGrad_ok stack read_from_file rank files [] hall]
    simp only [List.nil_append]
    split_ifs <;> rfl
  refine ⟨hfind, ?_, hok⟩
  by_cases hall : ∀ f ∈ files, rank_flag rank <:+: f →
      (ParseAdaGradParams stack read_from_file f []).status = .returned 0
  · rw [hok hall]
    intro w hw
    exact List.mem_singleton.mp hw
  · push_neg at hall
    obtain ⟨f, hf, hsel, hst⟩ := hall
    obtain ⟨s, _, hl⟩ := convertLoop_AdaGrad_fail stack read_from_file rank files []
      ⟨f, hf, (find_ne_none_iff _ _).mpr hsel, hst⟩
    unfold Convert
    rw [hl]
    intro w hw
    simp at hw

/-- Instance of C6: three files, two of them under `rank_0`, each holding the example dump. -/
theorem Convert_AdaGrad_output_witness :
    (∀ f ∈ sample_files, rank_flag 0 <:+: f →
      (ParseAdaGradParams sample_stack (read_const (example_dump (le_bytes 8 0))) f []).status
        = .returned 0) ∧
    (Convert sample_stack (read_const (example_dump (le_bytes 8 0))) write_ok sample_files
        "out/part-0".toList "AdaGrad".toList 0).written
      = [("out/part-0".toList,
          selected_output sample_stack (read_const (example_dump (le_bytes 8 0))) 0 sample_files)] ∧
    selected_output sample_stack (read_const (example_dump (le_bytes 8 0))) 0 sample_files
      = ("42\ttbl\t0.100000\t-0.200000\t0.300000\t7.500000\n" ++
          "42\tt2\t0.100000\t-0.200000\t0.300000\t7.500000\n").toList :=
  ⟨by decide,
    (Convert_AdaGrad_output sample_stack (read_const (example_dump (le_bytes 8 0))) write_ok sample_files
      "out/part-0".toList 0).2.2 (by decide),
    by decide⟩

/-- C7: `ParseAdamParams` returns 0 and leaves the buffer as it is, for every file name
and buffer; `Convert` in mode `Adam` reads no file, makes one call of `write_to_file` with
an empty buffer, and returns 0 or -1 as that call succeeds or fails. -/
theorem ParseAdamParams_noop (stack : Stack) (read_from_file : List Char → Option (List Byte))
    (write_to_file : List Char → List Char → Int) (files : List (List Char))
    (file buf out_file : List Char) (rank : Int) :
    ParseAdamParams file buf = (0, buf) ∧
      (Convert stack read_from_file write_to_file files out_file "Adam".toList rank).written
        = [(out_file, [])] ∧
      (Convert stack read_from_file write_to_file files out_file "Adam".toList rank).status
        = (if write_to_file out_file [] < 0 then .returned (-1) else .returned 0) := by
  refine ⟨rfl, ?_, ?_⟩
  · unfold Convert
    rw [convertLoop_Adam]
    simp only []
    split_ifs <;> rfl
  · unfold Convert
    rw [convertLoop_Adam]
    simp only []
    split_ifs <;> rfl

/-! ## The claims on SparseAdaGradValue -/

/-- C8: `IsMiniDim()` is true if and only if `dim < 2`, for every integer `dim` and
whatever the other members hold. -/
theorem IsMiniDim_iff (w : UnionWeight) (g2sum : Nat) (dim : Int) (version show_ : Nat) :
    (SparseAdaGradValue.mk w g2sum dim version show_).IsMiniDim = true ↔ dim < 2 := by
  unfold SparseAdaGradValue.IsMiniDim
  simp only []
  by_cases h : dim < 2
  · simp [h]
  · simp [h]

/-- C9: for every value, `Weight()` is the inline array when `dim < 2` and the heap
pointer `w_.p` when `dim ≥ 2`; the destructor deletes nothing when `dim < 2` and deletes
`w_.p`, once, when `dim ≥ 2`; so it deletes the heap pointer exactly when `Weight()` is
that pointer. -/
theorem Weight_destruct_agree (x : SparseAdaGradValue) :
    (x.Dim < 2 → x.Weight = .inline_v ∧ x.destruct = []) ∧
      (2 ≤ x.Dim → x.Weight = .heap x.w_.p ∧ x.destruct = [x.w_.p]) ∧
      (x.destruct = [x.w_.p] ↔ x.Weight = .heap x.w_.p) ∧
      (x.destruct = [] ↔ x.Weight = .inline_v) := by
  unfold SparseAdaGradValue.Weight SparseAdaGradValue.destruct SparseAdaGradValue.IsMiniDim
    SparseAdaGradValue.Dim
  by_cases h : 2 > x.dim_
  · have h2 : ¬ 2 ≤ x.dim_ := by omega
    have h3 : x.dim_ < 2 := h
    simp [h, h2, h3]
  · have h2 : 2 ≤ x.dim_ := by omega
    have h3 : ¬ x.dim_ < 2 := by omega
    simp [h, h2, h3]

/-- Instance of C9: a value of dimension 2 whose pointer member is 4096. -/
theorem Weight_destruct_agree_witness :
    2 ≤ (SparseAdaGradValue.mk ⟨[], 4096⟩ 0 2 0 0).Dim ∧
    (SparseAdaGradValue.mk ⟨[], 4096⟩ 0 2 0 0).Weight = .heap 4096 ∧
    (SparseAdaGradValue.mk ⟨[], 4096⟩ 0 2 0 0).destruct = [4096] :=
  ⟨by decide,
    (Weight_destruct_agree (SparseAdaGradValue.mk ⟨[], 4096⟩ 0 2 0 0)).2.1 (by decide)⟩

theorem IncreaseVersion_iterate (x : SparseAdaGradValue) (n : Nat) :
    (SparseAdaGradValue.IncreaseVersion^[n] x).version_ = (x.version_ + n) % 2 ^ 32
        ∨ (n = 0 ∧ (SparseAdaGradValue.IncreaseVersion^[n] x).version_ = x.version_) := by
  induction n generalizing x with
  | zero => right; exact ⟨rfl, rfl⟩
  | succ n ih =>
    left
    rw [Function.iterate_succ_apply']
    rcases ih x with h | ⟨rfl, h⟩
    · simp only [SparseAdaGradValue.IncreaseVersion, h]
      omega
    · simp only [SparseAdaGradValue.IncreaseVersion, h]

/-- C10, as the code has it: `version_` is a `uint32_t`, so after `N` calls of
`IncreaseVersion()` on a value `Version()` is `(version_before + N) mod 2 ^ 32`; as long as
`version_before + N < 2 ^ 32` this is `version_before + N`, and a call made while the
counter is below `2 ^ 32 - 1` makes `Version()` strictly larger. -/
theorem IncreaseVersion_mod (x : SparseAdaGradValue) (n : Nat) (hx : x.version_ < 2 ^ 32) :
    (SparseAdaGradValue.IncreaseVersion^[n] x).Version = (x.Version + n) % 2 ^ 32 ∧
      (x.Version + n < 2 ^ 32 →
        (SparseAdaGradValue.IncreaseVersion^[n] x).Version = x.Version + n) ∧
      (x.Version + 1 < 2 ^ 32 → x.Version < x.IncreaseVersion.Version) := by
  have h1 : (SparseAdaGradValue.IncreaseVersion^[n] x).Version = (x.Version + n) % 2 ^ 32 := by
    unfold SparseAdaGradValue.Version
    rcases IncreaseVersion_iterate x n with h | ⟨rfl, h⟩
    · exact h
    · rw [h, Nat.add_zero, Nat.mod_eq_of_lt hx]
  refine ⟨h1, fun h => ?_, fun h => ?_⟩
  · rw [h1, Nat.mod_eq_of_lt h]
  · unfold SparseAdaGradValue.Version SparseAdaGradValue.IncreaseVersion at *
    simp only []
    rw [Nat.mod_eq_of_lt h]
    omega

/-- Instance of C10 as the code has it: two calls on a counter at `2 ^ 32 - 1`. -/
theorem IncreaseVersion_mod_witness :
    sample_value.version_ < 2 ^ 32 ∧
    (SparseAdaGradValue.IncreaseVersion^[2] sample_value).Version
      = (sample_value.Version + 2) % 2 ^ 32 :=
  ⟨by decide, (IncreaseVersion_mod sample_value 2 (by decide)).1⟩

/-- C10, as the specification has it, fails: on a value whose counter is `2 ^ 32 - 1` one
call of `IncreaseVersion()` leaves `Version()` at 0, which is neither
`version_before + 1` nor larger than before. -/
theorem IncreaseVersion_wraps :
    sample_value.Version = 4294967295 ∧
    sample_value.IncreaseVersion.Version = 0 ∧
    (SparseAdaGradValue.IncreaseVersion^[1] sample_value).Version ≠ sample_value.Version + 1 ∧
    ¬ sample_value.Version < sample_value.IncreaseVersion.Version := by
  decide

/-- C11: for every `DenseAdaGradValue` whose four arrays have the length `L` of the weight
array, as the data model requires, and lie together in a 64-bit address space,
`DataSize()` is `16 * L`. -/
theorem DataSize_eq (x : DenseAdaGradValue)
    (hlen : x.d2sum_.length = x.w_.length ∧ x.g2sum_.length = x.w_.length ∧
      x.m_.length = x.w_.length)
    (hmem : 4 * x.w_.length + 4 * x.d2sum_.length + 4 * x.g2sum_.length + 4 * x.m_.length
      < 2 ^ 64) :
    x.DataSize = 16 * x.w_.length := by
  obtain ⟨h1, h2, h3⟩ := hlen
  unfold DenseAdaGradValue.DataSize
  have : ((x.w_.length : Int) * 4 * 4) = ((16 * x.w_.length : Nat) : Int) := by
    push_cast; ring
  rw [this, to_size_t_of_nat _ (by omega)]

/-- Instance of C11: a dense value of length 3 has data size 48. -/
theorem DataSize_eq_witness :
    ((sample_dense.d2sum_.length = sample_dense.w_.length ∧
        sample_dense.g2sum_.length = sample_dense.w_.length ∧
        sample_dense.m_.length = sample_dense.w_.length) ∧
      4 * sample_dense.w_.length + 4 * sample_dense.d2sum_.length
        + 4 * sample_dense.g2sum_.length + 4 * sample_dense.m_.length < 2 ^ 64) ∧
    sample_dense.DataSize = 16 * sample_dense.w_.length :=
  ⟨by decide, DataSize_eq sample_dense (by decide) (by decide)⟩

theorem run_calls_frame (float_add : Nat → Nat → Nat) (calls : List MemberCall)
    (x : SparseAdaGradValue) :
    (run_calls float_add calls x).w_ = x.w_ ∧ (run_calls float_add calls x).g2sum_ = x.g2sum_ ∧
      (run_calls float_add calls x).dim_ = x.dim_ := by
  unfold run_calls
  induction calls generalizing x with
  | nil => exact ⟨rfl, rfl, rfl⟩
  | cons c cs ih =>
    rw [List.foldl_cons]
    obtain ⟨h1, h2, h3⟩ := ih (c.run float_add x)
    rw [h1, h2, h3]
    cases c <;> exact ⟨rfl, rfl, rfl⟩

/-- C12: `IncreaseVersion()` changes only `version_`, by the `uint32_t` increment, and
`AddShow(s)` changes only `show_`, to the float sum of `show_` and `s`; after any sequence of
calls of `IncreaseVersion`, `AddShow`, `Version`, `Dim`, `Weight` and `IsMiniDim` the members
`dim_`, `g2sum_` and `w_` are what they were, and so are `Dim()`, `IsMiniDim()` and
`Weight()`. -/
theorem storage_mode_fixed (float_add : Nat → Nat → Nat) (x : SparseAdaGradValue)
    (s : Nat) (calls : List MemberCall) :
    x.IncreaseVersion = { x with version_ := (x.version_ + 1) % 2 ^ 32 } ∧
      (x.version_ + 1 < 2 ^ 32 → x.IncreaseVersion.version_ = x.version_ + 1) ∧
      x.AddShow float_add s = { x with show_ := float_add x.show_ s } ∧
      (run_calls float_add calls x).dim_ = x.dim_ ∧
      (run_calls float_add calls x).g2sum_ = x.g2sum_ ∧
      (run_calls float_add calls x).w_ = x.w_ ∧
      (run_calls float_add calls x).Dim = x.Dim ∧
      (run_calls float_add calls x).IsMiniDim = x.IsMiniDim ∧
      (run_calls float_add calls x).Weight = x.Weight := by
  obtain ⟨h1, h2, h3⟩ := run_calls_frame float_add calls x
  refine ⟨rfl, fun h => ?_, rfl, h3, h2, h1, h3, ?_, ?_⟩
  · simp only [SparseAdaGradValue.IncreaseVersion]
    exact Nat.mod_eq_of_lt h
  · simp only [SparseAdaGradValue.IsMiniDim, h3]
  · simp only [SparseAdaGradValue.Weight, SparseAdaGradValue.IsMiniDim, h3, h1]

/-- Instance of C12: two increments and one `AddShow` on a value of dimension 2. -/
theorem storage_mode_fixed_witness :
    (0 : Nat) + 1 < 2 ^ 32 ∧
    (SparseAdaGradValue.mk ⟨[], 4096⟩ 0 2 0 0x3F800000).IncreaseVersion.version_ = 0 + 1 ∧
    run_calls sample_float_add
        [.IncreaseVersion, .AddShow 0x40000000, .Weight, .IncreaseVersion]
        (SparseAdaGradValue.mk ⟨[], 4096⟩ 0 2 0 0x3F800000)
      = SparseAdaGradValue.mk ⟨[], 4096⟩ 0 2 2 0x40400000 :=
  ⟨by decide,
    (storage_mode_fixed sample_float_add (SparseAdaGradValue.mk ⟨[], 4096⟩ 0 2 0 0x3F800000)
      0 []).2.1 (by decide),
    by decide⟩

/-- C17: for every `parse_mode` other than `AdaGrad` and `Adam`, `Convert` makes one call of
`write_to_file`, with an empty buffer, and returns 0 when that call succeeds (-1 when it
fails); it reads no file: the outcome is the same whatever the files hold or whether they
can be read. -/
theorem Convert_unrecognised_mode (stack : Stack) (read_from_file : List Char → Option (List Byte))
    (write_to_file : List Char → List Char → Int) (files : List (List Char))
    (out_file parse_mode : List Char) (rank : Int)
    (h1 : parse_mode ≠ "AdaGrad".toList) (_h2 : parse_mode ≠ "Adam".toList) :
    (Convert stack read_from_file write_to_file files out_file parse_mode rank).written
        = [(out_file, [])] ∧
      (0 ≤ write_to_file out_file [] →
        (Convert stack read_from_file write_to_file files out_file parse_mode rank).status
          = .returned 0) ∧
      (write_to_file out_file [] < 0 →
        (Convert stack read_from_file write_to_file files out_file parse_mode rank).status
          = .returned (-1)) ∧
      ∀ other_read : List Char → Option (List Byte),
        Convert stack other_read write_to_file files out_file parse_mode rank
          = Convert stack read_from_file write_to_file files out_file parse_mode rank := by
  have hc : ∀ rd : List Char → Option (List Byte),
      Convert stack rd write_to_file files out_file parse_mode rank =
        if write_to_file out_file [] < 0 then ⟨.returned (-1), [(out_file, [])]⟩
        else ⟨.returned 0, [(out_file, [])]⟩ := by
    intro rd
    unfold Convert
    rw [convertLoop_not_AdaGrad stack rd parse_mode h1]
  refine ⟨?_, fun h => ?_, fun h => ?_, fun rd => ?_⟩
  · rw [hc]; split_ifs <;> rfl
  · rw [hc, if_neg (by omega)]
  · rw [hc, if_pos h]
  · rw [hc, hc]

/-- Instance of C17: the mode `adagrad`, with a file that cannot be read. -/
theorem Convert_unrecognised_mode_witness :
    ("adagrad".toList ≠ "AdaGrad".toList ∧ "adagrad".toList ≠ "Adam".toList) ∧
    (Convert sample_stack read_none write_ok [sample_path] "out/part-0".toList "adagrad".toList 0).written
      = [("out/part-0".toList, [])] :=
  ⟨by decide,
    (Convert_unrecognised_mode sample_stack read_none write_ok [sample_path] "out/part-0".toList
      "adagrad".toList 0 (by decide) (by decide)).1⟩

/-! ## The table handle and the rank marker -/

theorem split_ne_nil (sep : Char) (s : List Char) : split sep s ≠ [] := by
  cases s with
  | nil => simp [split]
  | cons c cs =>
    unfold split
    split_ifs
    · simp
    · cases split sep cs <;> simp

/-- The number of components is the number of separators plus one. -/
theorem length_split (sep : Char) (s : List Char) :
    (split sep s).length = s.count sep + 1 := by
  induction s with
  | nil => rfl
  | cons c cs ih =>
    unfold split
    by_cases h : c = sep
    · rw [if_pos h, List.length_cons, ih, h, List.count_cons_self]
    · rw [if_neg h, List.count_cons_of_ne (Ne.symm h), ← ih]
      cases hs : split sep cs with
      | nil => exact absurd hs (split_ne_nil sep cs)
      | cons a t => rfl

theorem table_handle_eq_none_iff (file : List Char) :
    table_handle file = none ↔ file.count '/' < 2 := by
  have hl := length_split '/' file
  unfold table_handle
  simp only []
  split_ifs with h
  · simp only [true_iff]; omega
  · simp only [reduceCtorEq, false_iff]; omega

theorem count_rank_flag (rank : Int) : 2 ≤ (rank_flag rank).count '/' := by
  unfold rank_flag
  rw [List.count_append, List.count_append]
  have h1 : ("/rank_".toList).count '/' = 1 := by decide
  have h2 : ("/".toList).count '/' = 1 := by decide
  omega

/-- A path that contains the rank marker has a table handle. -/
theorem table_handle_of_flag (rank : Int) (file : List Char)
    (h : find file (rank_flag rank) ≠ none) : 2 ≤ file.count '/' := by
  have hin : rank_flag rank <:+: file := (find_ne_none_iff _ _).mp h
  exact le_trans (count_rank_flag rank) (hin.sublist.count_le _)

theorem recordLoop_not_out_of_range (dim : Int) (handle : List Char) (fuel : Nat)
    (b : List Byte) (buf : List Char) :
    (recordLoop dim handle fuel b buf).status ≠ .out_of_range := by
  induction fuel generalizing b buf with
  | zero =>
    simp only [recordLoop]
    split_ifs <;> simp
  | succ fuel ih =>
    rw [recordLoop]
    simp only []
    split_ifs
    all_goals first
      | (simp; done)
      | exact ih _ _

/-- The call ends on an index out of range only for a path without a table handle. -/
theorem parse_out_of_range (stack : Stack) (read_from_file : List Char → Option (List Byte))
    (file buf : List Char)
    (h : (ParseAdaGradParams stack read_from_file file buf).status = .out_of_range) :
    table_handle file = none := by
  unfold ParseAdaGradParams at h
  cases hr : read_from_file file with
  | none => rw [hr] at h; simp at h
  | some bytes =>
    rw [hr] at h
    simp only [] at h
    split_ifs at h
    cases hth : table_handle file with
    | none => rfl
    | some th =>
      rw [hth] at h
      exact absurd h (recordLoop_not_out_of_range _ _ _ _ _)

theorem convertLoop_not_out_of_range (stack : Stack) (read_from_file : List Char → Option (List Byte))
    (parse_mode : List Char) (rank : Int) (files : List (List Char)) (buf : List Char) :
    convertLoop stack read_from_file parse_mode rank files buf ≠ .ended .out_of_range := by
  induction files generalizing buf with
  | nil => simp [convertLoop]
  | cons f fs ih =>
    rw [convertLoop]
    simp only []
    by_cases hfind : find f (rank_flag rank) = none
    · rw [if_pos hfind]; exact ih _
    · rw [if_neg hfind]
      have hcount := table_handle_of_flag rank f hfind
      have hth : table_handle f ≠ none := by
        rw [Ne, table_handle_eq_none_iff]; omega
      have hst : (ParseAdaGradParams stack read_from_file f buf).status ≠ .out_of_range :=
        fun h => hth (parse_out_of_range stack read_from_file f buf h)
      split_ifs
      · cases hs : (ParseAdaGradParams stack read_from_file f buf).status with
        | returned code =>
          simp only []
          split_ifs
          · simp
          · exact ih _
        | check_failed => simp
        | out_of_range => exact absurd hs hst
        | undefined => simp
        | stack_overflow => simp
        | out_of_fuel => simp
      · simp
      · exact ih _
      · exact ih _

/-- C15: every path that contains the marker `"/rank_<rank>/"` splits on `/` into at least
three components, so it has a table handle and no call of `ParseAdaGradParams` on it ends
on an index out of range; hence no call of `Convert` does. A direct call on a path with
fewer than two `/` does, as soon as the file holds the four bytes of a header whose `dim`
is not negative and fits on the stack, so that the call gets as far as the index. -/
theorem table_handle_in_bounds (stack : Stack) (read_from_file : List Char → Option (List Byte))
    (write_to_file : List Char → List Char → Int) (files : List (List Char))
    (out_file parse_mode : List Char) (rank : Int) :
    (∀ file, find file (rank_flag rank) ≠ none →
        3 ≤ (split '/' file).length ∧ (∃ handle, table_handle file = some handle) ∧
        ∀ buf, (ParseAdaGradParams stack read_from_file file buf).status ≠ .out_of_range) ∧
      (Convert stack read_from_file write_to_file files out_file parse_mode rank).status
        ≠ .out_of_range ∧
      (∀ file bytes buf, file.count '/' < 2 → read_from_file file = some bytes →
        4 ≤ bytes.length → 0 ≤ to_int32 (le_value (bytes.take 4)) →
        (to_int32 (le_value (bytes.take 4))).toNat ≤ stack.floats →
        (split '/' file).length < 3 ∧
        (ParseAdaGradParams stack read_from_file file buf).status = .out_of_range) := by
  refine ⟨fun file hfind => ?_, ?_, fun file bytes buf hc hr hlen hdim hfit => ?_⟩
  · have hcount := table_handle_of_flag rank file hfind
    have hth : table_handle file ≠ none := by
      rw [Ne, table_handle_eq_none_iff]; omega
    refine ⟨by rw [length_split]; omega, ?_, fun buf h => ?_⟩
    · cases hh : table_handle file with
      | none => exact absurd hh hth
      | some handle => exact ⟨handle, rfl⟩
    · exact hth (parse_out_of_range stack read_from_file file buf h)
  · unfold Convert
    cases hl : convertLoop stack read_from_file parse_mode rank files [] with
    | ended s =>
      simp only []
      intro hs
      rw [hs] at hl
      exact convertLoop_not_out_of_range _ _ _ _ _ _ hl
    | finished buf =>
      simp only []
      split_ifs <;> simp
  · refine ⟨by rw [length_split]; omega, ?_⟩
    have hth : table_handle file = none := (table_handle_eq_none_iff file).mpr hc
    rw [parse_no_handle stack read_from_file file buf bytes hr hlen hdim hfit hth]

/-- Instance of C15: `sample_path` contains the marker of rank 0. -/
theorem table_handle_in_bounds_witness :
    find sample_path (rank_flag 0) ≠ none ∧
    3 ≤ (split '/' sample_path).length ∧
    (("part".toList).count '/' < 2 ∧ read_const (le_bytes 4 0) "part".toList
        = some (le_bytes 4 0) ∧ 4 ≤ (le_bytes 4 0).length ∧
      0 ≤ to_int32 (le_value ((le_bytes 4 0).take 4)) ∧
      (to_int32 (le_value ((le_bytes 4 0).take 4))).toNat ≤ sample_stack.floats) ∧
    (ParseAdaGradParams sample_stack (read_const (le_bytes 4 0)) "part".toList []).status
      = .out_of_range :=
  ⟨by decide,
    ((table_handle_in_bounds sample_stack (read_const (le_bytes 4 0)) write_ok [] [] [] 0).1 sample_path
      (by decide)).1,
    by decide,
    ((table_handle_in_bounds sample_stack (read_const (le_bytes 4 0)) write_ok [] [] [] 0).2.2
      "part".toList (le_bytes 4 0) [] (by decide) rfl (by decide) (by decide)
      (by decide)).2⟩

/-! ## A negative dimension -/

theorem to_size_t_neg (i : Int) (h1 : -(2 ^ 33) ≤ i) (h2 : i < 0) :
    2 ^ 63 ≤ to_size_t i := by
  unfold to_size_t
  omega

theorem to_int32_bounds (l : List Byte) (hl : l.length ≤ 4) :
    -(2 ^ 31) ≤ to_int32 (le_value l) := by
  have h1 : le_value l < 256 ^ l.length := le_value_lt l
  have h2 : 256 ^ l.length ≤ 256 ^ 4 := Nat.pow_le_pow_right (by decide) hl
  unfold to_int32
  split_ifs with h
  · omega
  · omega

/-- With a negative `dim` the first iteration on a non-empty buffer fails a `CHECK`, after
appending at most the key and the table handle. -/
theorem recordLoop_negative (dim : Int) (h1 : -(2 ^ 31) ≤ dim) (h2 : dim < 0)
    (handle : List Char) (fuel : Nat) (b : List Byte) (buf : List Char)
    (hb0 : 0 < b.length) (hb : b.length < 2 ^ 63) :
    (recordLoop dim handle (fuel + 1) b buf).status = .check_failed ∧
      ((recordLoop dim handle (fuel + 1) b buf).buf = buf ∨
        (recordLoop dim handle (fuel + 1) b buf).buf =
          buf ++ (to_string_u64 (le_value (b.take 8)) ++ '\t' :: handle)) := by
  have hn : 2 ^ 63 ≤ to_size_t (4 * dim) := to_size_t_neg _ (by omega) (by omega)
  rw [recordLoop]
  simp only []
  rw [if_neg (by omega)]
  by_cases h8 : b.length > 8
  · rw [if_neg (by omega), if_neg (by simp; omega)]
    by_cases hc : (b.drop 8).length ≥ to_size_t (dim * 4 + ((4 + 4 : Nat) : Int) + 4)
    · rw [if_neg (by omega), if_pos]
      · exact ⟨rfl, Or.inr rfl⟩
      · rw [List.length_take, List.length_drop]
        omega
    · rw [if_pos hc]
      exact ⟨rfl, Or.inr rfl⟩
  · rw [if_pos h8]
    exact ⟨rfl, Or.inl rfl⟩

theorem length_of_negative_header (bytes : List Byte)
    (hneg : to_int32 (le_value (bytes.take 4)) < 0) : 4 ≤ bytes.length := by
  by_contra hlt
  have h1 : le_value (bytes.take 4) < 256 ^ (bytes.take 4).length := le_value_lt _
  have h2 : (bytes.take 4).length ≤ 3 := by
    rw [List.length_take]
    omega
  have h3 : 256 ^ (bytes.take 4).length ≤ 256 ^ 3 := Nat.pow_le_pow_right (by decide) h2
  unfold to_int32 at hneg
  split_ifs at hneg with h
  · omega
  · omega

/-- C16, as the code has it: for every buffer whose header decodes to a negative `dim`,
with or without bytes after the header and whatever the path, `ParseAdaGradParams` gets,
with nothing appended to the output, to the declaration `float weight[dim]`, whose bound is
negative: what follows is undefined, so the call is bound neither to fail a `CHECK` nor to
return 0. The record loop taken alone, entered with this `dim` (and `dim * sizeof(float)`
modulo `2 ^ 64`) on the bytes after the header when there are some and the buffer is shorter
than `2 ^ 63`, fails a `CHECK` in its first iteration, having appended nothing or only the
key and the table handle of a first line. -/
theorem negative_dim_no_record (stack : Stack)
    (read_from_file : List Char → Option (List Byte))
    (file buf handle : List Char) (bytes : List Byte) (fuel : Nat)
    (hread : read_from_file file = some bytes)
    (hneg : to_int32 (le_value (bytes.take 4)) < 0) :
    ParseAdaGradParams stack read_from_file file buf = ⟨.undefined, bytes.drop 4, buf⟩ ∧
      (4 < bytes.length → bytes.length < 2 ^ 63 →
        (recordLoop (to_int32 (le_value (bytes.take 4))) handle (fuel + 1) (bytes.drop 4)
          buf).status = .check_failed ∧
        ((recordLoop (to_int32 (le_value (bytes.take 4))) handle (fuel + 1) (bytes.drop 4)
            buf).buf = buf ∨
          (recordLoop (to_int32 (le_value (bytes.take 4))) handle (fuel + 1) (bytes.drop 4)
            buf).buf =
            buf ++ (to_string_u64 (le_value ((bytes.drop 4).take 8)) ++ '\t' :: handle))) := by
  have hlow := to_int32_bounds (bytes.take 4) (by simp)
  have h4 := length_of_negative_header bytes hneg
  refine ⟨parse_negative stack read_from_file file buf bytes hread h4 hneg,
    fun h5 hlen => ?_⟩
  exact recordLoop_negative _ hlow hneg handle fuel (bytes.drop 4) buf
    (by rw [List.length_drop]; omega) (by rw [List.length_drop]; omega)

/-- Instance of C16 as the code has it: the header of `dim = -1` followed by sixteen
bytes. -/
theorem negative_dim_no_record_witness :
    (read_const (le_bytes 4 0xFFFFFFFF ++ le_bytes 8 5 ++ le_bytes 8 0) sample_path
        = some (le_bytes 4 0xFFFFFFFF ++ le_bytes 8 5 ++ le_bytes 8 0) ∧
      to_int32 (le_value ((le_bytes 4 0xFFFFFFFF ++ le_bytes 8 5 ++ le_bytes 8 0).take 4))
        < 0) ∧
    ParseAdaGradParams sample_stack
        (read_const (le_bytes 4 0xFFFFFFFF ++ le_bytes 8 5 ++ le_bytes 8 0)) sample_path []
      = ⟨.undefined, (le_bytes 4 0xFFFFFFFF ++ le_bytes 8 5 ++ le_bytes 8 0).drop 4, []⟩ :=
  ⟨by decide,
    (negative_dim_no_record sample_stack
      (read_const (le_bytes 4 0xFFFFFFFF ++ le_bytes 8 5 ++ le_bytes 8 0)) sample_path []
      "tbl".toList (le_bytes 4 0xFFFFFFFF ++ le_bytes 8 5 ++ le_bytes 8 0) 0 rfl
      (by decide)).1⟩

/-- C16, as the specification has it, fails: the header of `dim = -100` alone does not
return 0, and the same header followed by sixteen bytes does not fail a `CHECK`: both calls
stop at the declaration of the weight array, whose bound is negative. -/
theorem negative_header_not_checked :
    to_int32 (le_value ((le_bytes 4 0xFFFFFF9C).take 4)) = -100 ∧
    ParseAdaGradParams sample_stack (read_const (le_bytes 4 0xFFFFFF9C)) sample_path []
      = ⟨.undefined, [], []⟩ ∧
    (ParseAdaGradParams sample_stack (read_const (le_bytes 4 0xFFFFFF9C)) sample_path
      []).status ≠ .returned 0 ∧
    (ParseAdaGradParams sample_stack
      (read_const (le_bytes 4 0xFFFFFF9C ++ le_bytes 8 5 ++ le_bytes 8 0)) sample_path
      []).status ≠ .check_failed := by
  decide

/-! ## Termination of the record loop -/

/-- Once the loop has ended within `fuel` iterations, one more changes nothing. -/
theorem recordLoop_fuel_succ (dim : Int) (handle : List Char) (fuel : Nat) (b : List Byte)
    (buf : List Char) (h : (recordLoop dim handle fuel b buf).status ≠ .out_of_fuel) :
    recordLoop dim handle (fuel + 1) b buf = recordLoop dim handle fuel b buf := by
  induction fuel generalizing b buf with
  | zero =>
    by_cases h0 : b.length = 0
    · rw [recordLoop, recordLoop, if_pos h0, if_pos h0]
    · rw [recordLoop, if_neg h0] at h
      exact absurd rfl h
  | succ fuel ih =>
    rw [recordLoop] at h
    conv_lhs => rw [recordLoop]
    conv_rhs => rw [recordLoop]
    simp only [] at h ⊢
    split_ifs at h ⊢
    all_goals first
      | rfl
      | exact ih _ _ h

theorem recordLoop_fuel_le (dim : Int) (handle : List Char) (fuel more : Nat) (b : List Byte)
    (buf : List Char) (h : (recordLoop dim handle fuel b buf).status ≠ .out_of_fuel) :
    recordLoop dim handle (fuel + more) b buf = recordLoop dim handle fuel b buf := by
  induction more with
  | zero => rfl
  | succ m ih =>
    rw [← Nat.add_assoc, recordLoop_fuel_succ dim handle (fuel + m) b buf (by rw [ih]; exact h),
      ih]

/-- For `dim ≥ 0` the loop ends within one iteration per whole record and one more. -/
theorem recordLoop_within (dim : Nat) (hdim : dim < 2 ^ 31) (handle : List Char) (fuel : Nat)
    (b : List Byte) (buf : List Char) (hf : b.length / (8 + 4 * dim + 8 + 4) < fuel) :
    (recordLoop (dim : Int) handle fuel b buf).status ≠ .out_of_fuel := by
  induction fuel generalizing b buf with
  | zero => exact absurd hf (Nat.not_lt_zero _)
  | succ fuel ih =>
    by_cases h0 : b.length = 0
    · simp [recordLoop, h0]
    · by_cases hb : b.length < 8 + 4 * dim + 8 + 4
      · rw [recordLoop_short dim hdim handle fuel b buf (by omega) hb]
        simp
      · rw [recordLoop_full dim hdim handle fuel b buf (by omega)]
        apply ih
        rw [List.length_drop]
        have hdiv := Nat.div_eq_sub_div (show 0 < 8 + 4 * dim + 8 + 4 by omega)
          (show 8 + 4 * dim + 8 + 4 ≤ b.length by omega)
        rw [hdiv] at hf
        exact Nat.lt_of_succ_lt_succ hf

/-- For `dim ≥ 0` and a whole number of records the loop ends within one iteration per
record. -/
theorem recordLoop_whole (dim : Nat) (hdim : dim < 2 ^ 31) (handle : List Char) (fuel : Nat)
    (b : List Byte) (buf : List Char) (hm : b.length % (8 + 4 * dim + 8 + 4) = 0)
    (hf : b.length / (8 + 4 * dim + 8 + 4) ≤ fuel) :
    (recordLoop (dim : Int) handle fuel b buf).status = .returned 0 := by
  induction fuel generalizing b buf with
  | zero =>
    have h0 : b.length = 0 := by
      have := Nat.div_add_mod b.length (8 + 4 * dim + 8 + 4)
      rw [Nat.le_zero.mp hf, hm] at this
      simpa using this.symm
    simp [recordLoop, h0]
  | succ fuel ih =>
    by_cases h0 : b.length = 0
    · simp [recordLoop, h0]
    · have hb : 8 + 4 * dim + 8 + 4 ≤ b.length := by
        by_contra hlt
        rw [Nat.mod_eq_of_lt (by omega)] at hm
        exact h0 hm
      rw [recordLoop_full dim hdim handle fuel b buf hb]
      apply ih
      · rw [List.length_drop]
        rw [← hm]
        exact (Nat.mod_eq_sub_mod hb).symm
      · rw [List.length_drop]
        have hdiv := Nat.div_eq_sub_div (show 0 < 8 + 4 * dim + 8 + 4 by omega) hb
        rw [hdiv] at hf
        exact Nat.le_of_succ_le_succ hf

/-- Whatever `dim`, one iteration per byte is enough for the loop to end. -/
theorem recordLoop_enough (dim : Int) (handle : List Char) (fuel : Nat) (b : List Byte)
    (buf : List Char) (hf : b.length ≤ fuel) :
    (recordLoop dim handle fuel b buf).status ≠ .out_of_fuel := by
  induction fuel generalizing b buf with
  | zero =>
    have : b.length = 0 := by omega
    simp [recordLoop, this]
  | succ fuel ih =>
    rw [recordLoop]
    simp only []
    split_ifs with h0 h8
    all_goals first
      | (simp; done)
      | (apply ih
         simp only [List.length_drop]
         omega)

theorem parse_not_out_of_fuel (stack : Stack) (read_from_file : List Char → Option (List Byte))
    (file buf : List Char) :
    (ParseAdaGradParams stack read_from_file file buf).status ≠ .out_of_fuel := by
  unfold ParseAdaGradParams
  cases hr : read_from_file file with
  | none => simp
  | some bytes =>
    simp only []
    split_ifs
    · simp
    · simp
    · simp
    · simp
    · cases hth : table_handle file with
      | none => simp
      | some th => exact recordLoop_enough _ _ _ _ _ (le_refl _)

/-- C14, as the code has it: for `dim ≥ 0` and the buffer `b` left after the header (of
length `len - 4`), an iteration on a non-empty `b` fails a `CHECK` when `b` is shorter than
`20 + 4 * dim` bytes and otherwise removes exactly `20 + 4 * dim` bytes and goes on; the loop
ends within `(len - 4) / (20 + 4 * dim) + 1` iterations, more iterations changing nothing,
and within `(len - 4) / (20 + 4 * dim)` when `b` is a whole number of records; and the call
of `ParseAdaGradParams`, whatever the file holds, never lacks iterations. -/
theorem recordLoop_terminates (stack : Stack) (read_from_file : List Char → Option (List Byte))
    (file handle : List Char) (dim : Nat) (hdim : dim < 2 ^ 31) (b : List Byte)
    (buf : List Char) (fuel : Nat) :
    (0 < b.length → b.length < 20 + 4 * dim →
        (recordLoop (dim : Int) handle (fuel + 1) b buf).status = .check_failed) ∧
      (20 + 4 * dim ≤ b.length →
        recordLoop (dim : Int) handle (fuel + 1) b buf =
          recordLoop (dim : Int) handle fuel (b.drop (20 + 4 * dim))
            (buf ++ record_line handle dim (b.take (20 + 4 * dim))) ∧
        (b.drop (20 + 4 * dim)).length + (20 + 4 * dim) = b.length) ∧
      (recordLoop (dim : Int) handle (b.length / (20 + 4 * dim) + 1) b buf).status
        ≠ .out_of_fuel ∧
      (∀ more, recordLoop (dim : Int) handle (b.length / (20 + 4 * dim) + 1 + more) b buf =
        recordLoop (dim : Int) handle (b.length / (20 + 4 * dim) + 1) b buf) ∧
      (b.length % (20 + 4 * dim) = 0 →
        (recordLoop (dim : Int) handle (b.length / (20 + 4 * dim)) b buf).status
          = .returned 0) ∧
      ∀ out, (ParseAdaGradParams stack read_from_file file out).status ≠ .out_of_fuel := by
  have hN : 20 + 4 * dim = 8 + 4 * dim + 8 + 4 := by omega
  rw [hN]
  have hw := recordLoop_within dim hdim handle (b.length / (8 + 4 * dim + 8 + 4) + 1) b buf
    (Nat.lt_succ_self _)
  refine ⟨fun h0 hb => recordLoop_short dim hdim handle fuel b buf h0 hb,
    fun hb => ⟨recordLoop_full dim hdim handle fuel b buf hb, ?_⟩, hw,
    fun more => recordLoop_fuel_le _ _ _ more b buf hw,
    fun hm => recordLoop_whole dim hdim handle _ b buf hm (le_refl _),
    fun out => parse_not_out_of_fuel stack read_from_file file out⟩
  rw [List.length_drop]
  omega

/-- Instance of C14 as the code has it: the cut-off sample dump, whose 19 bytes after the
header need one iteration, which fails. -/
theorem recordLoop_terminates_witness :
    (0 : Nat) < 2 ^ 31 ∧
    (recordLoop ((0 : Nat) : Int) "tbl".toList
      ((sample_truncated.drop 4).length / (20 + 4 * 0) + 1) (sample_truncated.drop 4) []).status
      ≠ .out_of_fuel :=
  ⟨by decide,
    (recordLoop_terminates sample_stack (read_const sample_truncated) sample_path "tbl".toList 0
      (by decide) (sample_truncated.drop 4) [] 0).2.2.1⟩

/-- C14, as the specification has it, fails by one: for `dim = 0` and a buffer of five bytes
`(len - 4) / (20 + 4 * dim)` is 0, but the loop makes one iteration, the one that fails the
`CHECK`: with no iteration allowed the loop has not ended, with one it has. -/
theorem recordLoop_iteration_beyond_quotient :
    (sample_one_byte.length - 4) / (20 + 4 * 0) = 0 ∧
    to_int32 (le_value (sample_one_byte.take 4)) = 0 ∧
    (recordLoop 0 "tbl".toList 0 (sample_one_byte.drop 4) []).status = .out_of_fuel ∧
    (recordLoop 0 "tbl".toList 1 (sample_one_byte.drop 4) []).status = .check_failed ∧
    (ParseAdaGradParams sample_stack (read_const sample_one_byte) sample_path []).status
      = .check_failed := by
  decide

/-! ## The second field of every line -/

theorem table_handle_of_length (file : List Char) (h : 3 ≤ (split '/' file).length) :
    ∃ handle, table_handle file = some handle ∧
      (split '/' file)[(split '/' file).length - 3]? = some handle := by
  refine ⟨(split '/' file).get ⟨(split '/' file).length - 3, by omega⟩, ?_, ?_⟩
  · unfold table_handle
    simp only []
    rw [dif_neg (by omega)]
  · rw [List.getElem?_eq_getElem (by omega)]
    rfl

theorem emitted_line_partial (handle : List Char) (key : Nat) :
    emitted_line handle key [] false = to_string_u64 key ++ '\t' :: handle := by
  unfold emitted_line
  rw [intercalate_cons_tab]
  simp

theorem emitted_line_complete (handle : List Char) (key : Nat) (floats : List Nat)
    (last : Nat) :
    emitted_line handle key (floats ++ [last]) true =
      to_string_u64 key ++ '\t' :: handle ++
        (floats.map fun x => '\t' :: to_string_float x).flatten ++
        '\t' :: to_string_float last ++ ['\n'] := by
  unfold emitted_line
  rw [intercalate_cons_tab]
  simp only [List.map_cons, List.map_append, List.map_map, List.map_nil, List.flatten_cons,
    List.flatten_append, List.flatten_nil, List.append_nil, if_true, List.append_assoc,
    List.cons_append, List.nil_append]
  rfl

/-- Whatever the buffer and `dim`, what the loop appends is a sequence of lines, complete
or not, that all carry the table handle as second field. -/
theorem recordLoop_emits (dim : Int) (handle : List Char) (fuel : Nat) (b : List Byte)
    (buf : List Char) :
    ∃ items : List (Nat × List Nat × Bool),
      (recordLoop dim handle fuel b buf).buf =
        buf ++ (items.map fun i => emitted_line handle i.1 i.2.1 i.2.2).flatten := by
  induction fuel generalizing b buf with
  | zero =>
    refine ⟨[], ?_⟩
    simp only [recordLoop]
    split_ifs <;> simp
  | succ fuel ih =>
    rw [recordLoop]
    simp only []
    split_ifs
    all_goals first
      | (refine ⟨[], ?_⟩
         simp only [List.map_nil, List.flatten_nil, List.append_nil]
         done)
      | (refine ⟨[(le_value (b.take 8), [], false)], ?_⟩
         simp only [List.map_cons, List.map_nil, List.flatten_cons, List.flatten_nil,
           List.append_nil, emitted_line_partial]
         done)
      | (obtain ⟨items, hitems⟩ := ih
          (List.drop 4 (List.drop (4 + 4) (List.drop (to_size_t (4 * dim)) (List.drop 8 b))))
          (buf ++ (to_string_u64 (le_value (List.take 8 b)) ++ '\t' :: handle) ++
            weights_text dim (List.take (to_size_t (4 * dim)) (List.drop 8 b)) ++
            '\t' :: to_string_float (le_value (List.take 4 (List.drop (4 + 4)
              (List.drop (to_size_t (4 * dim)) (List.drop 8 b))))) ++ ['\n'])
         refine ⟨(le_value (b.take 8),
          ((List.range dim.toNat).map fun i =>
            le_value (((List.take (to_size_t (4 * dim)) (List.drop 8 b)).drop (4 * i)).take 4))
            ++ [le_value (List.take 4 (List.drop (4 + 4)
              (List.drop (to_size_t (4 * dim)) (List.drop 8 b))))], true) :: items, ?_⟩
         refine hitems.trans ?_
         simp only [List.map_cons, List.flatten_cons]
         rw [emitted_line_complete]
         simp only [weights_text, List.map_map, List.append_assoc, List.cons_append,
           List.nil_append, List.singleton_append]
         rfl)

theorem parse_emits (stack : Stack) (read_from_file : List Char → Option (List Byte))
    (file buf handle : List Char) (hpath : table_handle file = some handle) :
    ∃ items : List (Nat × List Nat × Bool),
      (ParseAdaGradParams stack read_from_file file buf).buf =
        buf ++ (items.map fun i => emitted_line handle i.1 i.2.1 i.2.2).flatten := by
  unfold ParseAdaGradParams
  cases hr : read_from_file file with
  | none => exact ⟨[], by simp⟩
  | some bytes =>
    simp only [hpath]
    split_ifs
    · exact ⟨[], by simp⟩
    · exact ⟨[], by simp⟩
    · exact ⟨[], by simp⟩
    · exact ⟨[], by simp⟩
    · exact recordLoop_emits _ _ _ _ _

/-- C13: for every path with at least three `/`-separated components there is one table
handle, the third component from the end, fixed by the path alone; whatever buffer is read
from that path and whatever the output held before, what `ParseAdaGradParams` appends is a
sequence of lines, the last possibly cut off by a failed `CHECK`, each made of a key, this
handle as second field, and floats, separated by tabs. -/
theorem table_handle_from_path (file : List Char) (hpath : 3 ≤ (split '/' file).length) :
    ∃ handle : List Char,
      (split '/' file)[(split '/' file).length - 3]? = some handle ∧
      ∀ (stack : Stack) (read_from_file : List Char → Option (List Byte)) (buf : List Char),
        ∃ items : List (Nat × List Nat × Bool),
          (ParseAdaGradParams stack read_from_file file buf).buf =
            buf ++ (items.map fun i =>
              List.intercalate ['\t']
                  (to_string_u64 i.1 :: handle :: i.2.1.map to_string_float)
                ++ (if i.2.2 then ['\n'] else [])).flatten := by
  obtain ⟨handle, hth, hget⟩ := table_handle_of_length file hpath
  exact ⟨handle, hget, fun stack rd buf => parse_emits stack rd file buf handle hth⟩

/-- Instance of C13: `sample_path` has five components, and the two lines of a dump read
from it both carry `tbl`. -/
theorem table_handle_from_path_witness :
    3 ≤ (split '/' sample_path).length ∧
    (split '/' sample_path)[(split '/' sample_path).length - 3]? = some "tbl".toList ∧
    (ParseAdaGradParams
        sample_stack (read_const (le_bytes 4 1 ++ [sample_record_a, sample_record_b].flatten))
        sample_path []).buf
      = "7\ttbl\t1.000000\t2.000000\n8\ttbl\t-0.500000\t1.000000\n".toList ∧
    ∃ handle : List Char,
      (split '/' sample_path)[(split '/' sample_path).length - 3]? = some handle ∧
      ∀ (stack : Stack) (read_from_file : List Char → Option (List Byte)) (buf : List Char),
        ∃ items : List (Nat × List Nat × Bool),
          (ParseAdaGradParams stack read_from_file sample_path buf).buf =
            buf ++ (items.map fun i =>
              List.intercalate ['\t']
                  (to_string_u64 i.1 :: handle :: i.2.1.map to_string_float)
                ++ (if i.2.2 then ['\n'] else [])).flatten :=
  ⟨by decide, by decide, by decide, table_handle_from_path sample_path (by decide)⟩

/-! ## Rank markers of different ranks -/

theorem digitChar_facts :
    ∀ k, k < 10 → (Nat.digitChar k).toNat - 48 = k ∧ Nat.digitChar k ≠ '/' := by
  decide

theorem digits_value_append (xs : List Char) (c : Char) :
    digits_value (xs ++ [c]) = 10 * digits_value xs + (c.toNat - 48) := by
  unfold digits_value
  rw [List.foldl_append]
  rfl

theorem toDigitsCore_spec (fuel n : Nat) (ds : List Char) (h : n < fuel) :
    ∃ xs, Nat.toDigitsCore 10 fuel n ds = xs ++ ds ∧ digits_value xs = n ∧
      ∀ c ∈ xs, c ≠ '/' := by
  induction fuel generalizing n ds with
  | zero => omega
  | succ fuel ih =>
    have hd := digitChar_facts (n % 10) (Nat.mod_lt n (by decide))
    unfold Nat.toDigitsCore
    simp only []
    by_cases hq : n / 10 = 0
    · rw [if_pos hq]
      refine ⟨[Nat.digitChar (n % 10)], rfl, ?_, ?_⟩
      · have := digits_value_append [] (Nat.digitChar (n % 10))
        rw [List.nil_append] at this
        rw [this, hd.1]
        simp only [digits_value, List.foldl_nil]
        omega
      · intro c hc
        rw [List.mem_singleton.mp hc]
        exact hd.2
    · rw [if_neg hq]
      obtain ⟨xs, hxs, hval, hno⟩ := ih (n / 10) (Nat.digitChar (n % 10) :: ds) (by omega)
      refine ⟨xs ++ [Nat.digitChar (n % 10)], ?_, ?_, ?_⟩
      · rw [hxs]; simp
      · rw [digits_value_append, hval, hd.1]
        omega
      · intro c hc
        rcases List.mem_append.mp hc with h1 | h1
        · exact hno c h1
        · rw [List.mem_singleton.mp h1]
          exact hd.2

/-- The decimal digits of a number denote it and hold no `/`. -/
theorem toDigits_spec (n : Nat) :
    digits_value (Nat.toDigits 10 n) = n ∧ ∀ c ∈ Nat.toDigits 10 n, c ≠ '/' := by
  obtain ⟨xs, hxs, hval, hno⟩ := toDigitsCore_spec (n + 1) n [] (Nat.lt_succ_self n)
  unfold Nat.toDigits
  rw [hxs, List.append_nil]
  exact ⟨hval, hno⟩

theorem split_cons (sep c : Char) (cs : List Char) :
    split sep (c :: cs) =
      if c = sep then [] :: split sep cs
      else
        match split sep cs with
        | [] => [[c]]
        | h :: t => (c :: h) :: t := rfl

/-- Splitting at a separator splits the list of components. -/
theorem split_append_sep (sep : Char) (a b : List Char) :
    split sep (a ++ sep :: b) = split sep a ++ split sep b := by
  induction a with
  | nil =>
    rw [List.nil_append, split_cons, if_pos rfl]
    rfl
  | cons c cs ih =>
    rw [List.cons_append, split_cons, split_cons, ih]
    by_cases h : c = sep
    · rw [if_pos h, if_pos h]
      rfl
    · rw [if_neg h, if_neg h]
      cases hs : split sep cs with
      | nil => exact absurd hs (split_ne_nil sep cs)
      | cons x t => rfl

theorem split_no_sep (sep : Char) (m : List Char) (h : ∀ c ∈ m, c ≠ sep) :
    split sep m = [m] := by
  induction m with
  | nil => rfl
  | cons c cs ih =>
    rw [split_cons, if_neg (h c (List.mem_cons_self _ _)),
      ih (fun x hx => h x (List.mem_cons_of_mem _ hx))]

/-- The name `rank_<rank>` between the two `/` of the marker. -/
theorem rank_flag_eq (r : Int) (hr : 0 ≤ r) :
    rank_flag r = '/' :: (("rank_".toList ++ Nat.toDigits 10 r.toNat) ++ ['/']) := by
  unfold rank_flag to_string_int
  rw [if_neg (by omega)]
  rfl

theorem rank_name_no_sep (n : Nat) :
    ∀ c ∈ "rank_".toList ++ Nat.toDigits 10 n, c ≠ '/' := by
  intro c hc
  rcases List.mem_append.mp hc with h | h
  · have : ∀ x ∈ "rank_".toList, x ≠ '/' := by decide
    exact this c h
  · exact (toDigits_spec n).2 c h

/-- A path that contains the marker of a rank has the name `rank_<rank>` among its
components. -/
theorem rank_name_mem_split (r : Int) (hr : 0 ≤ r) (path : List Char)
    (h : rank_flag r <:+: path) :
    ("rank_".toList ++ Nat.toDigits 10 r.toNat) ∈ split '/' path := by
  obtain ⟨a, b, hab⟩ := h
  rw [rank_flag_eq r hr] at hab
  have hp : path = a ++ '/' :: (("rank_".toList ++ Nat.toDigits 10 r.toNat) ++ '/' :: b) := by
    rw [← hab]
    simp [List.append_assoc]
  rw [hp, split_append_sep, split_append_sep, split_no_sep _ _ (rank_name_no_sep r.toNat)]
  simp

theorem two_le_length_of_ne {α : Type} (l : List α) (x y : α) (hx : x ∈ l) (hy : y ∈ l)
    (hne : x ≠ y) : 2 ≤ l.length := by
  match l, hx, hy with
  | [], hx, _ => simp at hx
  | [z], hx, hy =>
    rw [List.mem_singleton] at hx hy
    exact absurd (hx.trans hy.symm) hne
  | _ :: _ :: _, _, _ => simp

/-- C18: for every two distinct non-negative ranks and every path in which exactly one
component starts with `rank_`, the markers `"/rank_r/"` and `"/rank_s/"` do not both
occur in the path, so the test of `Convert` selects the file for at most one of the two
ranks. -/
theorem rank_markers_disjoint (r s : Int) (hr : 0 ≤ r) (hs : 0 ≤ s) (hne : r ≠ s)
    (path : List Char)
    (hone : ((split '/' path).filter fun c => "rank_".toList.isPrefixOf c).length = 1) :
    ¬ (rank_flag r <:+: path ∧ rank_flag s <:+: path) ∧
      ¬ (find path (rank_flag r) ≠ none ∧ find path (rank_flag s) ≠ none) := by
  have main : ¬ (rank_flag r <:+: path ∧ rank_flag s <:+: path) := by
    rintro ⟨h1, h2⟩
    have m1 := rank_name_mem_split r hr path h1
    have m2 := rank_name_mem_split s hs path h2
    have p1 : ("rank_".toList).isPrefixOf ("rank_".toList ++ Nat.toDigits 10 r.toNat) = true :=
      List.isPrefixOf_iff_prefix.mpr (List.prefix_append _ _)
    have p2 : ("rank_".toList).isPrefixOf ("rank_".toList ++ Nat.toDigits 10 s.toNat) = true :=
      List.isPrefixOf_iff_prefix.mpr (List.prefix_append _ _)
    have hdiff : "rank_".toList ++ Nat.toDigits 10 r.toNat
        ≠ "rank_".toList ++ Nat.toDigits 10 s.toNat := by
      intro heq
      have hd := List.append_cancel_left heq
      have hv : digits_value (Nat.toDigits 10 r.toNat)
          = digits_value (Nat.toDigits 10 s.toNat) := by rw [hd]
      rw [(toDigits_spec r.toNat).1, (toDigits_spec s.toNat).1] at hv
      omega
    have h2 := two_le_length_of_ne
      ((split '/' path).filter fun c => "rank_".toList.isPrefixOf c) _ _
      (List.mem_filter.mpr ⟨m1, p1⟩) (List.mem_filter.mpr ⟨m2, p2⟩) hdiff
    rw [hone] at h2
    exact absurd h2 (by decide)
  refine ⟨main, fun h => main ⟨(find_ne_none_iff _ _).mp h.1, (find_ne_none_iff _ _).mp h.2⟩⟩

/-- Instance of C18: a path under `rank_10` holds the marker of rank 10 and not that of
rank 1. -/
theorem rank_markers_disjoint_witness :
    ((0 : Int) ≤ 1 ∧ (0 : Int) ≤ 10 ∧ (1 : Int) ≠ 10 ∧
      (((split '/' "/data/tbl/rank_10/part".toList).filter
        fun c => "rank_".toList.isPrefixOf c).length = 1)) ∧
    find "/data/tbl/rank_10/part".toList (rank_flag 10) ≠ none ∧
    find "/data/tbl/rank_10/part".toList (rank_flag 1) = none ∧
    ¬ (find "/data/tbl/rank_10/part".toList (rank_flag 1) ≠ none ∧
      find "/data/tbl/rank_10/part".toList (rank_flag 10) ≠ none) :=
  ⟨by decide, by decide, by decide,
    (rank_markers_disjoint 1 10 (by decide) (by decide) (by decide)
      "/data/tbl/rank_10/part".toList (by decide)).2⟩

end tensornet
